import Mathlib

/-!
Verification of the swproj2eq core against its specification.

The development shallowly embeds the two core modules of the repository:

* swproj2eq/core/parser.py — the heuristic binary .swproj reader
  (parse_swproj together with its helpers _parse_metadata and
  _parse_blocks), modelled over byte buffers represented as List Nat,
  with IEEE-754 binary32 payloads decoded exactly into an F32 type whose
  finite values are rationals.

* swproj2eq/core/dsp.py — compute_preamp_db, the log-frequency
  interpolator and cepstral minimum-phase synthesizer inside
  freq_response_to_ir (real-valued, with the fallible control flow kept
  explicit), and the PCM quantization step of write_wav.

Python behaviour that the source relies on is modelled explicitly:
string find over byte ranges, struct.unpack_from bounds errors,
bankers rounding of round(), truncation of int() applied to a float,
the resync loop of _parse_metadata, and the error kinds a call can
surface (the Err type below).  Fallible code returns Except Err.
-/

namespace Swproj

/-! ## Definitions: shallow embedding of parser.py and dsp.py -/

/-- Error kinds a modelled operation can surface.  The first three are the
declared parse failures of the specification; the remaining ones model
Python exceptions the source can raise: struct.error for an out-of-range
unpack_from, a ValueError from int()/float() conversion, an IndexError
from indexing an empty or short sequence, a math domain error from
math.log on a nonpositive argument, a ValueError from max() on an empty
sequence, and the InvalidCurve kind that the specification declares for
curve validation. -/
inductive Err where
  | missingHeader
  | noDataBlocks
  | channelCountMismatch
  | structError
  | convError
  | indexError
  | mathDomain
  | emptySeq
  | invalidCurve
deriving DecidableEq, Repr

/-- Truncation toward zero, the behaviour of Python int() on a float. -/
def pyTrunc (q : ℚ) : ℤ :=
  if 0 ≤ q then ⌊q⌋ else ⌈q⌉

/-- Bankers rounding (round-half-to-even), the behaviour of Python round(). -/
def pyRound (q : ℚ) : ℤ :=
  let f := ⌊q⌋
  let r := q - (f : ℚ)
  if r < 1/2 then f
  else if 1/2 < r then f + 1
  else if f % 2 = 0 then f else f + 1

/-- Minimum of a list of naturals with a default for the empty list,
modelling min(gen, default=d). -/
def listMinD (l : List ℕ) (d : ℕ) : ℕ :=
  match l.min? with
  | some m => m
  | none => d

/-- Python max() over a list, failing on an empty sequence. -/
def pyMax (l : List ℚ) : Except Err ℚ :=
  match l with
  | [] => .error .emptySeq
  | x :: xs => .ok (xs.foldl max x)

/-- Model of compute_preamp_db (dsp.py lines 8-19).  A channel is
represented by its correction_dB curve, so the argument is the list of
correction curves of the channels. -/
def compute_preamp_db (channels : List (List ℚ)) (extra_headroom_db : ℚ := 1) :
    Except Err ℚ := do
  if channels = [] then return 0
  let maxes ← channels.mapM pyMax
  let max_gain ← pyMax maxes
  if max_gain ≤ 0 then return 0
  return -(max_gain + extra_headroom_db)

/-- Model of the sample quantization of write_wav (dsp.py lines 136-145):
peak normalization to 0.95 full scale with Python int() truncation and
clamping to the symmetric 16-bit range.  The wave-container I/O is not
modelled; the returned list is the int_samples buffer. -/
def write_wav_samples (samples : List ℚ) : Except Err (List ℤ) :=
  match (samples.map (fun s => |s|)).max? with
  | none => .error .emptySeq
  | some peak =>
    let peak := if peak = 0 then 1 else peak
    let scale := (0.95 : ℚ) / peak
    .ok (samples.map (fun s => max (-32767) (min 32767 (pyTrunc (s * scale * 32767)))))

/-- Python slice data[a:b] with the usual clamping. -/
def slice (data : List ℕ) (a b : ℕ) : List ℕ := (data.take b).drop a

/-- Whether pat occurs in data starting exactly at position i. -/
def matchAt (data pat : List ℕ) (i : ℕ) : Bool := slice data i (i + pat.length) == pat

/-- Model of bytes.find(pat, start, stop): the least position i with
start ≤ i, i + pat.length ≤ min stop data.length, and a match at i. -/
def findSub (data pat : List ℕ) (start stop : ℕ) : Option ℕ :=
  let stop' := min stop data.length
  (List.range' start (stop' + 1 - pat.length - start)).find? (fun i => matchAt data pat i)

/-- Occurrences collected by the while-loop of parse_swproj (lines 76-82),
which restarts each search one byte after the previous hit. -/
def findAllOv (data pat : List ℕ) : ℕ → ℕ → List ℕ
  | 0, _ => []
  | fuel+1, pos =>
    match findSub data pat pos data.length with
    | none => []
    | some i => i :: findAllOv data pat fuel (i + 1)

/-- Occurrences in the style of re.finditer (non-overlapping): the next
search resumes after the whole match. -/
def findAllNo (data pat : List ℕ) : ℕ → ℕ → List ℕ
  | 0, _ => []
  | fuel+1, pos =>
    match findSub data pat pos data.length with
    | none => []
    | some i => i :: findAllNo data pat fuel (i + pat.length)

/-- Byte at index i, 0 when out of range (every use is bounds-checked
first, mirroring the source). -/
def byteAt (data : List ℕ) (i : ℕ) : ℕ := data.getD i 0

/-- Little-endian unsigned 32-bit read, struct.unpack_from("<I", data, i). -/
def leU32 (data : List ℕ) (i : ℕ) : ℕ :=
  byteAt data i + 256 * byteAt data (i+1) + 65536 * byteAt data (i+2) +
    16777216 * byteAt data (i+3)

inductive F32 where
  | fin (scaled : ℤ)
  | inf (neg : Bool)
  | nan
deriving DecidableEq

/-- Decoding of a 32-bit pattern as a little-endian IEEE-754 float. -/
def decodeF32 (bits : ℕ) : F32 :=
  let sign := bits / 2^31 % 2
  let e := bits / 2^23 % 2^8
  let m := bits % 2^23
  if e = 255 then
    if m = 0 then .inf (sign = 1) else .nan
  else
    let mag : ℕ := if e = 0 then m else (2^23 + m) * 2^(e-1)
    .fin (if sign = 1 then -(mag:ℤ) else (mag:ℤ))

/-- Python float comparison a < b (false whenever either side is nan). -/
def f32lt : F32 → F32 → Bool
  | .nan, _ => false
  | _, .nan => false
  | .fin a, .fin b => a < b
  | .fin _, .inf n => !n
  | .inf n, .fin _ => n
  | .inf n, .inf m => n && !m

/-- Model of struct.unpack_from("<f", data, off): struct.error when fewer
than 4 bytes remain. -/
def unpackF32 (data : List ℕ) (off : ℕ) : Except Err F32 :=
  if off + 4 ≤ data.length then .ok (decodeF32 (leU32 data off)) else .error .structError

def POINTS_PER_CURVE : ℕ := 355

/-- DATA_HEADER: uint32 355 then uint32 7, little endian. -/
def DATA_HEADER : List ℕ := [99, 1, 0, 0, 7, 0, 0, 0]

/-- Bankers rounding of the rational a / b for natural a b, the behaviour
of Python round() on that quotient. -/
def pyRoundDiv (a b : ℕ) : ℕ :=
  let q := a / b
  let r := a % b
  if 2 * r < b then q
  else if b < 2 * r then q + 1
  else if q % 2 = 0 then q else q + 1

structure Block where
  fpp : ℕ
  freqs : List F32
  values : List F32

/-- One (frequency, value) pair read of _parse_blocks (lines 57-61); the
point offset is float_start + i * fpp * 4. -/
def readPoint (data : List ℕ) (float_start fpp i : ℕ) : Except Err (F32 × F32) := do
  let freq ← unpackF32 data (float_start + i * fpp * 4)
  let val ← unpackF32 data (float_start + i * fpp * 4 + 4)
  pure (freq, val)

/-- Floats-per-point estimate of _parse_blocks (lines 47-53): bytes up to
the next boundary past float_start = header + 8, divided by 4, divided by
355, rounded. -/
def blockFpp (data : List ℕ) (boundaries : List ℕ) (header : ℕ) : ℕ :=
  pyRoundDiv
    ((listMinD ((boundaries ++ [data.length]).filter (fun b => header + 8 < b)) data.length
        - (header + 8)) / 4)
    POINTS_PER_CURVE

/-- One data block decode of _parse_blocks (lines 46-63). -/
def parseBlock (data : List ℕ) (boundaries : List ℕ) (header : ℕ) : Except Err Block := do
  let pts ← (List.range POINTS_PER_CURVE).mapM
    (readPoint data (header + 8) (blockFpp data boundaries header))
  pure ⟨blockFpp data boundaries header, pts.map Prod.fst, pts.map Prod.snd⟩

/-- Model of _parse_blocks (parser.py lines 44-64). -/
def parseBlocks (data : List ℕ) (data_headers boundaries : List ℕ) :
    Except Err (List Block) :=
  data_headers.mapM (parseBlock data boundaries)

/-- Ascii decode with errors="replace". -/
def decodeAsciiReplace (l : List ℕ) : List ℕ :=
  l.map (fun b => if b < 128 then b else 65533)

/-- Printability of the code points such a decode can produce, matching
str.isprintable on them (U+FFFD is printable, controls are not). -/
def pyPrintable (c : ℕ) : Bool := (32 ≤ c && c ≤ 126) || c == 65533

/-- Dict update meta[k] = v keeping insertion order. -/
def metaSet (m : List (List ℕ × List ℕ)) (k v : List ℕ) : List (List ℕ × List ℕ) :=
  if m.any (fun e => e.1 == k) then m.map (fun e => if e.1 == k then (k, v) else e)
  else m ++ [(k, v)]

/-- Dict lookup meta.get(k). -/
def metaGet (m : List (List ℕ × List ℕ)) (k : List ℕ) : Option (List ℕ) :=
  (m.find? (fun e => e.1 == k)).map Prod.snd

/-- Loop bound of _parse_metadata: the least boundary beyond start_pos,
else the end of the buffer. -/
def metaEnd (boundaries : List ℕ) (start_pos len : ℕ) : ℕ :=
  listMinD (boundaries.filter (fun b => start_pos < b)) len

/-- Scan loop of _parse_metadata (parser.py lines 17-40), written with
explicit fuel; metaLoop_terminates below shows that fuel endp - pos always
suffices, because every continuing step strictly advances the cursor. -/
def metaLoopF (data : List ℕ) (endp : ℕ) :
    ℕ → ℕ → List (List ℕ × List ℕ) → Option (List (List ℕ × List ℕ))
  | 0, pos, meta => if endp ≤ pos then some meta else none
  | fuel + 1, pos, meta =>
    if endp ≤ pos then some meta
    else
      match findSub data [0] pos (pos + 100) with
      | none => metaLoopF data endp fuel (pos + 1) meta
      | some null_pos =>
        if 50 < null_pos - pos then metaLoopF data endp fuel (pos + 1) meta
        else
          let key := decodeAsciiReplace (slice data pos null_pos)
          if !(key.all pyPrintable) || key.length < 2 then
            metaLoopF data endp fuel (pos + 1) meta
          else
            let val_len_pos := null_pos + 1
            if data.length < val_len_pos + 4 then some meta
            else
              let val_len := leU32 data val_len_pos
              if 200 < val_len then metaLoopF data endp fuel (pos + 1) meta
              else
                let val := decodeAsciiReplace
                  (slice data (val_len_pos + 4) (val_len_pos + 4 + val_len))
                metaLoopF data endp fuel (val_len_pos + 4 + val_len) (metaSet meta key val)

/-- Model of _parse_metadata (parser.py lines 13-41). -/
def parseMetadata (data : List ℕ) (start_pos : ℕ) (boundaries : List ℕ) :
    List (List ℕ × List ℕ) :=
  let endp := metaEnd boundaries start_pos data.length
  (metaLoopF data endp (endp - start_pos) start_pos []).getD []

def isDigit (c : ℕ) : Bool := 48 ≤ c && c ≤ 57

/-- Ascii whitespace recognized when int()/float() strip their argument. -/
def isPySpace (c : ℕ) : Bool := c == 32 || c == 9 || c == 10 || c == 13 || c == 11 || c == 12

def stripWs (l : List ℕ) : List ℕ :=
  ((l.dropWhile isPySpace).reverse.dropWhile isPySpace).reverse

/-- Digit-run scanner with the CPython underscore rule: an underscore must
sit between two digits.  Returns value, number of digits consumed, rest. -/
def digitsSpanGo : ℕ → ℕ → List ℕ → ℕ × ℕ × List ℕ
  | acc, cnt, 95 :: c :: rest =>
    if (cnt != 0) && isDigit c then digitsSpanGo (acc * 10 + (c - 48)) (cnt + 1) rest
    else (acc, cnt, 95 :: c :: rest)
  | acc, cnt, c :: rest =>
    if isDigit c then digitsSpanGo (acc * 10 + (c - 48)) (cnt + 1) rest
    else (acc, cnt, c :: rest)
  | acc, cnt, [] => (acc, cnt, [])

/-- Python int(s) on a decoded string: whitespace strip, optional sign,
then a nonempty underscore-grouped digit run consuming everything. -/
def pyInt (l : List ℕ) : Option ℤ :=
  let t := stripWs l
  let signed : Bool × List ℕ :=
    match t with
    | 43 :: r => (false, r)
    | 45 :: r => (true, r)
    | r => (false, r)
  match digitsSpanGo 0 0 signed.2 with
  | (v, cnt, []) => if cnt = 0 then none else some (if signed.1 then -(v:ℤ) else (v:ℤ))
  | _ => none

/-- Result of Python float(): a finite value kept symbolically as
mant * 10 ^ exp10, or an infinity or nan. -/
inductive PyFloat where
  | fin (mant : ℤ) (exp10 : ℤ)
  | inf (neg : Bool)
  | nan
deriving DecidableEq

/-- Magnitude part of the float grammar: digits [. digits] [(e|E) sign
digits], at least one mantissa digit, everything consumed. -/
def pyFloatCore (l : List ℕ) : Option (ℕ × ℤ) :=
  let s1 := digitsSpanGo 0 0 l
  let ipart := s1.1
  let icnt := s1.2.1
  let afterInt := s1.2.2
  let frac : ℕ × ℕ × List ℕ :=
    match afterInt with
    | 46 :: rest => digitsSpanGo 0 0 rest
    | _ => (0, 0, afterInt)
  let fpart := frac.1
  let fcnt := frac.2.1
  let afterFrac := if afterInt.head? = some 46 then frac.2.2 else afterInt
  if icnt + fcnt = 0 then none
  else
    let mant := ipart * 10 ^ fcnt + fpart
    match afterFrac with
    | [] => some (mant, -(fcnt:ℤ))
    | c :: rest =>
      if c == 101 || c == 69 then
        let esigned : Bool × List ℕ :=
          match rest with
          | 43 :: r => (false, r)
          | 45 :: r => (true, r)
          | r => (false, r)
        match digitsSpanGo 0 0 esigned.2 with
        | (ev, ecnt, []) =>
          if ecnt = 0 then none
          else some (mant, (if esigned.1 then -(ev:ℤ) else (ev:ℤ)) - (fcnt:ℤ))
        | _ => none
      else none

def toLowerAscii (l : List ℕ) : List ℕ :=
  l.map (fun c => if 65 ≤ c && c ≤ 90 then c + 32 else c)

/-- Python float(s) on a decoded string. -/
def pyFloat (l : List ℕ) : Option PyFloat :=
  let t := stripWs l
  let signed : Bool × List ℕ :=
    match t with
    | 43 :: r => (false, r)
    | 45 :: r => (true, r)
    | r => (false, r)
  let low := toLowerAscii signed.2
  if low == [105, 110, 102] || low == [105, 110, 102, 105, 110, 105, 116, 121] then
    some (.inf signed.1)
  else if low == [110, 97, 110] then some .nan
  else
    match pyFloatCore signed.2 with
    | some me => some (.fin (if signed.1 then -(me.1:ℤ) else (me.1:ℤ)) me.2)
    | none => none

/-- Python test x != 0 on a float (true for nan and infinities). -/
def PyFloat.isZero : PyFloat → Bool
  | .fin m _ => m == 0
  | _ => false

/-- Python abs() on a float. -/
def PyFloat.pyAbs : PyFloat → PyFloat
  | .fin m e => .fin |m| e
  | .inf _ => .inf false
  | .nan => .nan

structure ChannelData where
  name : List ℕ
  index : ℤ
  group : List ℕ
  delay_ms : PyFloat
  frequencies : List F32
  correction_dB : List F32
  measurement_dB : List F32
deriving DecidableEq

/-- Profile as assembled by parse_swproj; source_path is not modelled
because the embedding takes the byte buffer directly instead of a path. -/
structure Profile where
  channels : List ChannelData
deriving DecidableEq

def PROJECT_HEADER_END : List ℕ :=
  [60, 47, 80, 114, 111, 106, 101, 99, 116, 72, 101, 97, 100, 101, 114, 62]

def CHANNEL_DELAY_MS : List ℕ :=
  [67, 104, 97, 110, 110, 101, 108, 68, 101, 108, 97, 121, 77, 115]

def KEY_CHANNEL_NAME : List ℕ :=
  [67, 104, 97, 110, 110, 101, 108, 78, 97, 109, 101]

def KEY_CHANNEL_INDEX : List ℕ :=
  [67, 104, 97, 110, 110, 101, 108, 73, 110, 100, 101, 120]

def KEY_CHANNEL_GROUP : List ℕ :=
  [67, 104, 97, 110, 110, 101, 108, 71, 114, 111, 117, 112]

/-- Decimal digits of n, most significant first, with explicit fuel. -/
def natDecimalGo : ℕ → ℕ → List ℕ
  | 0, _ => []
  | fuel + 1, n => if n = 0 then [] else natDecimalGo fuel (n / 10) ++ [48 + n % 10]

/-- Decimal rendering of n as code points, the f-string Channel_{i} uses. -/
def natDecimal (n : ℕ) : List ℕ := if n = 0 then [48] else natDecimalGo (n + 1) n

/-- Default channel name Channel_{i}. -/
def defaultChannelName (i : ℕ) : List ℕ :=
  [67, 104, 97, 110, 110, 101, 108, 95] ++ natDecimal i

/-- In-place delay_ms update of the dict entry with the given key. -/
def updateDelay (chans : List ((List ℕ × ℤ) × ChannelData)) (key : List ℕ × ℤ)
    (v : PyFloat) : List ((List ℕ × ℤ) × ChannelData) :=
  chans.map (fun e => if e.1 == key then (e.1, { e.2 with delay_ms := v }) else e)

/-- Creation of a dict entry on first sight of its key (lines 97-106). -/
def extendChannels (chans : List ((List ℕ × ℤ) × ChannelData)) (key : List ℕ × ℤ)
    (grp : List ℕ) : List ((List ℕ × ℤ) × ChannelData) :=
  if chans.any (fun e => e.1 == key) then chans
  else chans ++ [(key, ⟨key.1, key.2, grp, .fin 0 0, [], [], []⟩)]

/-- Resolution of ch_idx (line 95): int(meta.get("ChannelIndex", i)),
failing like int() when the stored string is not an integer literal. -/
def resolveIdx (meta : List (List ℕ × List ℕ)) (i : ℕ) : Except Err ℤ :=
  match metaGet meta KEY_CHANNEL_INDEX with
  | none => Except.ok (i : ℤ)
  | some s =>
    match pyInt s with
    | some v => Except.ok v
    | none => Except.error Err.convError

/-- Delay handling (lines 107-110) given the stored ChannelDelayMs string:
the strings "-0" and "0" mean no delay, otherwise float() parses the
string and a nonzero value overwrites delay_ms with its absolute value. -/
def applyDelay (delay_str : List ℕ) (chans : List ((List ℕ × ℤ) × ChannelData))
    (key : List ℕ × ℤ) : Except Err (List ((List ℕ × ℤ) × ChannelData)) :=
  if delay_str == [45, 48] || delay_str == [48] then pure chans
  else
    match pyFloat delay_str with
    | none => Except.error Err.convError
    | some v => if v.isZero then pure chans else pure (updateDelay chans key v.pyAbs)

/-- One loop iteration of the channel assembly (lines 92-110) for the
anchor at position ie.2 with ordinal ie.1. -/
def assembleStep (data : List ℕ) (boundaries : List ℕ)
    (chans : List ((List ℕ × ℤ) × ChannelData)) (ie : ℕ × ℕ) :
    Except Err (List ((List ℕ × ℤ) × ChannelData)) :=
  (resolveIdx (parseMetadata data ie.2 boundaries) ie.1).bind (fun ch_idx =>
    let meta := parseMetadata data ie.2 boundaries
    let key := ((metaGet meta KEY_CHANNEL_NAME).getD (defaultChannelName ie.1), ch_idx)
    applyDelay ((metaGet meta CHANNEL_DELAY_MS).getD [48])
      (extendChannels chans key ((metaGet meta KEY_CHANNEL_GROUP).getD [])) key)

/-- Channel-dict construction of parse_swproj (lines 91-110): one pass per
ChannelDelayMs anchor, creating the entry on first sight of the
(name, index) key and folding the delay update in. -/
def assembleChannels (data : List ℕ) (delay_positions boundaries : List ℕ) :
    Except Err (List ((List ℕ × ℤ) × ChannelData)) :=
  delay_positions.enum.foldlM (assembleStep data boundaries) []

/-- Stable ascending sort by channel index, Python sorted(key=index). -/
def sortChannels (l : List ChannelData) : List ChannelData :=
  List.insertionSort (fun a b => a.index ≤ b.index) l

/-- Pairing of decoded blocks with sorted channels (lines 113-120): block
2i supplies the frequency grid and correction curve of channel i, block
2i+1 its measurement curve. -/
def assignBlocks (blocks : List Block) (chs : List ChannelData) : List ChannelData :=
  chs.enum.map (fun ic =>
    let i := ic.1
    let ch := ic.2
    let ch := if 2 * i < blocks.length then
        { ch with frequencies := (blocks.getD (2 * i) ⟨0, [], []⟩).freqs,
                  correction_dB := (blocks.getD (2 * i) ⟨0, [], []⟩).values }
      else ch
    if 2 * i + 1 < blocks.length then
      { ch with measurement_dB := (blocks.getD (2 * i + 1) ⟨0, [], []⟩).values }
    else ch)

/-- Block decoding, channel assembly, pairing, and stereo validation of
parse_swproj (lines 87-125), once the anchors have been located. -/
def parseTail (data : List ℕ) (require_stereo : Bool)
    (data_headers delay_positions boundaries : List ℕ) : Except Err Profile :=
  (parseBlocks data data_headers boundaries).bind (fun blocks =>
    (assembleChannels data delay_positions boundaries).bind (fun chans =>
      if require_stereo &&
          (assignBlocks blocks (sortChannels (chans.map Prod.snd))).length != 2 then
        Except.error Err.channelCountMismatch
      else
        Except.ok ⟨assignBlocks blocks (sortChannels (chans.map Prod.snd))⟩))

/-- Model of parse_swproj (parser.py lines 67-125) on an in-memory byte
buffer. -/
def parse_swproj (data : List ℕ) (require_stereo : Bool) : Except Err Profile :=
  match findSub data PROJECT_HEADER_END 0 data.length with
  | none => Except.error Err.missingHeader
  | some _ =>
    if findAllOv data DATA_HEADER (data.length + 1) 0 = [] then
      Except.error Err.noDataBlocks
    else
      parseTail data require_stereo
        (findAllOv data DATA_HEADER (data.length + 1) 0)
        (findAllNo data CHANNEL_DELAY_MS (data.length + 1) 0)
        (List.insertionSort (fun a b => a ≤ b)
          (findAllOv data DATA_HEADER (data.length + 1) 0 ++
            findAllNo data CHANNEL_DELAY_MS (data.length + 1) 0))

/-- Strict increase under the Python float ordering. -/
def strictIncrF32 : List F32 → Bool
  | [] => true
  | [_] => true
  | a :: b :: rest => f32lt a b && strictIncrF32 (b :: rest)

/-- Per-channel portion of claim C1: strictly increasing frequencies of
length 355, correction of the same length, measurement of that length when
present. -/
def channelOkC1 (ch : ChannelData) : Bool :=
  strictIncrF32 ch.frequencies && ch.frequencies.length == 355 &&
    ch.correction_dB.length == 355 &&
    (ch.measurement_dB.isEmpty || ch.measurement_dB.length == 355)

/-- Uniqueness of the (name, index) pairs across the channel list. -/
def distinctChannelKeys : List ChannelData → Bool
  | [] => true
  | c :: rest =>
    rest.all (fun d => !(c.name == d.name && c.index == d.index)) &&
      distinctChannelKeys rest

/-- Whole-profile statement of claim C1. -/
def profileOkC1 (p : Profile) : Bool :=
  p.channels.all channelOkC1 && distinctChannelKeys p.channels

/-- Observation of a parse result for claim C1: some b when parse
succeeded and the claimed invariant evaluates to b, none on failure. -/
def checkC1 : Except Err Profile → Option Bool
  | .ok p => some (profileOkC1 p)
  | .error _ => none

/-- Synthetic 52-byte buffer: header terminator, one ChannelDelayMs
metadata run with value 5, one data block whose floats are all zero, so
the decoded frequency grid is 355 copies of 0.0. -/
def c1buf : List ℕ :=
  PROJECT_HEADER_END ++ CHANNEL_DELAY_MS ++ [0, 1, 0, 0, 0, 53] ++ DATA_HEADER ++
    List.replicate 8 0

/-- Synthetic 24-byte buffer: header terminator immediately followed by a
data-block marker at the end of the buffer, so the first point read of
_parse_blocks falls outside the buffer. -/
def c7buf : List ℕ := PROJECT_HEADER_END ++ DATA_HEADER

/-- Error projection of a parse result. -/
def errOf : Except Err Profile → Option Err
  | .ok _ => none
  | .error e => some e

/-- Invariant of one channel-dict entry before block assignment: the key
agrees with the stored name and index, and the three curves are empty. -/
def EntryInv (e : (List ℕ × ℤ) × ChannelData) : Prop :=
  e.1 = (e.2.name, e.2.index) ∧ e.2.frequencies = [] ∧
    e.2.correction_dB = [] ∧ e.2.measurement_dB = []

/-- Invariant of the channel dict: every entry well-formed and all keys
distinct. -/
def StateInv (chans : List ((List ℕ × ℤ) × ChannelData)) : Prop :=
  (∀ e ∈ chans, EntryInv e) ∧ chans.Pairwise (fun a b => a.1 ≠ b.1)

/-- Profile that parse_swproj returns on c1buf. -/
def c1profile : Profile :=
  ⟨[⟨defaultChannelName 0, 0, [], .fin 5 0,
     List.replicate 355 (.fin 0), List.replicate 355 (.fin 0), []⟩]⟩

instance : DecidableEq (Except Err Profile) := fun a b =>
  match a, b with
  | .ok x, .ok y =>
    if h : x = y then isTrue (by rw [h]) else isFalse (by intro hc; cases hc; exact h rfl)
  | .error x, .error y =>
    if h : x = y then isTrue (by rw [h]) else isFalse (by intro hc; cases hc; exact h rfl)
  | .ok _, .error _ => isFalse (by intro hc; cases hc)
  | .error _, .ok _ => isFalse (by intro hc; cases hc)

/-- Binary search loop of freq_response_to_ir (dsp.py lines 35-41),
written with fuel; freq_response_to_ir passes fuel freqs.length, which
always suffices since hi - lo shrinks every iteration. -/
def bsearchGo (freqs : List ℚ) (bf : ℚ) : ℕ → ℕ → ℕ → ℕ × ℕ
  | 0, lo, hi => (lo, hi)
  | fuel + 1, lo, hi =>
    if 1 < hi - lo then
      if freqs.getD ((lo + hi) / 2) 0 ≤ bf then bsearchGo freqs bf fuel ((lo + hi) / 2) hi
      else bsearchGo freqs bf fuel lo ((lo + hi) / 2)
    else (lo, hi)

/-- One bin interpolation of freq_response_to_ir (dsp.py lines 29-48):
flat extrapolation outside the grid, otherwise binary search and linear
interpolation in log-frequency space with t = 0 on a degenerate pair. -/
noncomputable def interpBin (freqs gains : List ℚ) (bf : ℚ) : Except Err ℝ :=
  match freqs with
  | [] => .error .indexError
  | f0 :: _ =>
    if bf ≤ f0 then
      match gains with
      | [] => .error .indexError
      | g0 :: _ => .ok (g0 : ℝ)
    else if freqs.getD (freqs.length - 1) 0 ≤ bf then
      if gains = [] then .error .indexError
      else .ok ((gains.getD (gains.length - 1) 0 : ℚ) : ℝ)
    else
      let lo := (bsearchGo freqs bf freqs.length 0 (freqs.length - 1)).1
      let hi := (bsearchGo freqs bf freqs.length 0 (freqs.length - 1)).2
      if freqs.getD hi 0 ≠ freqs.getD lo 0 then
        if bf ≤ 0 ∨ freqs.getD lo 0 ≤ 0 ∨ freqs.getD hi 0 ≤ 0 then .error .mathDomain
        else if gains.length ≤ hi ∨ gains.length ≤ lo then .error .indexError
        else .ok ((gains.getD lo 0 : ℝ) +
          (Real.log (bf : ℝ) - Real.log ((freqs.getD lo 0 : ℚ) : ℝ)) /
            (Real.log ((freqs.getD hi 0 : ℚ) : ℝ) - Real.log ((freqs.getD lo 0 : ℚ) : ℝ)) *
          ((gains.getD hi 0 : ℝ) - (gains.getD lo 0 : ℝ)))
      else
        if gains.length ≤ hi ∨ gains.length ≤ lo then .error .indexError
        else .ok ((gains.getD lo 0 : ℝ) + 0 * ((gains.getD hi 0 : ℝ) - (gains.getD lo 0 : ℝ)))

/-- Uniform bin frequencies (line 27): i * sample_rate / n_fft for i up to
n_fft / 2 inclusive. -/
def binFreqs (sample_rate : ℚ) (n_fft : ℕ) : List ℚ :=
  (List.range (n_fft / 2 + 1)).map (fun i : ℕ => (i : ℚ) * sample_rate / (n_fft : ℚ))

/-- Interpolated gains for every bin (lines 28-48). -/
noncomputable def interpGains (freqs gains : List ℚ) (sample_rate : ℚ) (n_fft : ℕ) :
    Except Err (List ℝ) :=
  (binFreqs sample_rate n_fft).mapM (interpBin freqs gains)

/-- Conversion of dB to linear magnitude (line 50). -/
noncomputable def magnitudes (g : List ℝ) : List ℝ :=
  g.map (fun x => (10 : ℝ) ^ (x / 20))

/-- Floored log magnitude (line 51). -/
noncomputable def logMag (m : List ℝ) : List ℝ :=
  m.map (fun x => Real.log (max x 1e-10))

/-- Conjugate-symmetric mirroring log_mag + log_mag[-2:0:-1] (line 52). -/
def fullLogMag (lm : List ℝ) : List ℝ := lm ++ ((lm.drop 1).dropLast).reverse

/-- DFT angle 2 pi k j / n of the double loops. -/
noncomputable def dftAngle (n k j : ℕ) : ℝ := 2 * Real.pi * k * j / n

/-- Real part of the inverse DFT accumulation for the cepstrum (lines
54-61), with the per-term division by n of the source. -/
noncomputable def cepstrumRe (x : List ℝ) : List ℝ :=
  (List.range x.length).map (fun k =>
    ∑ j ∈ Finset.range x.length,
      x.getD j 0 * Real.cos (dftAngle x.length k j) / (x.length : ℝ))

/-- Imaginary part of the inverse DFT accumulation (lines 54-61). -/
noncomputable def cepstrumIm (x : List ℝ) : List ℝ :=
  (List.range x.length).map (fun k =>
    ∑ j ∈ Finset.range x.length,
      x.getD j 0 * (-Real.sin (dftAngle x.length k j)) / (x.length : ℝ))

/-- Minimum-phase causal window on the real cepstrum part (lines 63-70):
sample 0 kept, samples 1..n/2-1 doubled, the Nyquist sample kept when n is
even, everything else zeroed. -/
noncomputable def mpWindowRe (cre : List ℝ) (n : ℕ) : List ℝ :=
  (List.range n).map (fun k =>
    if k = 0 then cre.getD 0 0
    else if k < n / 2 then 2 * cre.getD k 0
    else if k = n / 2 ∧ n % 2 = 0 then cre.getD k 0
    else 0)

/-- Minimum-phase causal window on the imaginary cepstrum part (lines
63-68): the source never assigns indices 0 and n/2 of the imaginary part,
so they stay 0. -/
noncomputable def mpWindowIm (cim : List ℝ) (n : ℕ) : List ℝ :=
  (List.range n).map (fun k => if 1 ≤ k ∧ k < n / 2 then 2 * cim.getD k 0 else 0)

/-- Real part of the forward DFT of the windowed cepstrum (lines 72-82). -/
noncomputable def specRe (re im : List ℝ) (n : ℕ) : List ℝ :=
  (List.range n).map (fun k =>
    ∑ j ∈ Finset.range n,
      (re.getD j 0 * Real.cos (dftAngle n k j) - im.getD j 0 * (-Real.sin (dftAngle n k j))))

/-- Imaginary part of the forward DFT of the windowed cepstrum. -/
noncomputable def specIm (re im : List ℝ) (n : ℕ) : List ℝ :=
  (List.range n).map (fun k =>
    ∑ j ∈ Finset.range n,
      (re.getD j 0 * (-Real.sin (dftAngle n k j)) + im.getD j 0 * Real.cos (dftAngle n k j)))

/-- Complex exponentiation per bin (lines 84-89), real part. -/
noncomputable def mpSpecRe (sre sim : List ℝ) (n : ℕ) : List ℝ :=
  (List.range n).map (fun k => Real.exp (sre.getD k 0) * Real.cos (sim.getD k 0))

/-- Complex exponentiation per bin (lines 84-89), imaginary part. -/
noncomputable def mpSpecIm (sre sim : List ℝ) (n : ℕ) : List ℝ :=
  (List.range n).map (fun k => Real.exp (sre.getD k 0) * Real.sin (sim.getD k 0))

/-- Final inverse DFT, real output, divided by n (lines 91-96). -/
noncomputable def irOf (re im : List ℝ) (n : ℕ) : List ℝ :=
  (List.range n).map (fun k =>
    (∑ j ∈ Finset.range n,
      (re.getD j 0 * Real.cos (dftAngle n k j) - im.getD j 0 * (-Real.sin (dftAngle n k j)))) /
      (n : ℝ))

/-- Stages 50-98 of freq_response_to_ir applied to the interpolated bin
gains: dB to magnitude, floored log, mirroring, cepstrum, minimum-phase
window, forward DFT, complex exponential, inverse DFT, truncation. -/
noncomputable def synthPipeline (ig : List ℝ) (ir_length : ℕ) : List ℝ :=
  (irOf
    (mpSpecRe
      (specRe
        (mpWindowRe (cepstrumRe (fullLogMag (logMag (magnitudes ig))))
          (fullLogMag (logMag (magnitudes ig))).length)
        (mpWindowIm (cepstrumIm (fullLogMag (logMag (magnitudes ig))))
          (fullLogMag (logMag (magnitudes ig))).length)
        (fullLogMag (logMag (magnitudes ig))).length)
      (specIm
        (mpWindowRe (cepstrumRe (fullLogMag (logMag (magnitudes ig))))
          (fullLogMag (logMag (magnitudes ig))).length)
        (mpWindowIm (cepstrumIm (fullLogMag (logMag (magnitudes ig))))
          (fullLogMag (logMag (magnitudes ig))).length)
        (fullLogMag (logMag (magnitudes ig))).length)
      (fullLogMag (logMag (magnitudes ig))).length)
    (mpSpecIm
      (specRe
        (mpWindowRe (cepstrumRe (fullLogMag (logMag (magnitudes ig))))
          (fullLogMag (logMag (magnitudes ig))).length)
        (mpWindowIm (cepstrumIm (fullLogMag (logMag (magnitudes ig))))
          (fullLogMag (logMag (magnitudes ig))).length)
        (fullLogMag (logMag (magnitudes ig))).length)
      (specIm
        (mpWindowRe (cepstrumRe (fullLogMag (logMag (magnitudes ig))))
          (fullLogMag (logMag (magnitudes ig))).length)
        (mpWindowIm (cepstrumIm (fullLogMag (logMag (magnitudes ig))))
          (fullLogMag (logMag (magnitudes ig))).length)
        (fullLogMag (logMag (magnitudes ig))).length)
      (fullLogMag (logMag (magnitudes ig))).length)
    (fullLogMag (logMag (magnitudes ig))).length).take ir_length

/-- Model of freq_response_to_ir (dsp.py lines 22-98): the cepstral
minimum-phase synthesis pipeline over exact reals, erring exactly where
the source raises. -/
noncomputable def freq_response_to_ir (freqs gains : List ℚ) (sample_rate : ℚ)
    (ir_length : ℕ) : Except Err (List ℝ) :=
  (interpGains freqs gains sample_rate ir_length).map (fun ig =>
    synthPipeline ig ir_length)

/-! ## Theorems -/

theorem pyMax_eq_max? (l : List ℚ) (m : ℚ) (h : l.max? = some m) :
    pyMax l = .ok m := by
  cases l with
  | nil => simp [List.max?] at h
  | cons x xs =>
    simp [List.max?] at h
    simp [pyMax, h]

theorem foldl_max_eq (a : ℚ) (l : List ℚ) :
    l.foldl max a = match l.max? with | none => a | some m => max a m := by
  induction l generalizing a with
  | nil => simp [List.max?]
  | cons x xs ih =>
    simp only [List.foldl_cons, List.max?]
    rw [ih (max a x), ih x]
    cases xs.max? with
    | none => simp
    | some m => simp [max_assoc]

theorem preamp_mapM (channels : List (List ℚ)) (hch : ∀ c ∈ channels, c ≠ []) :
    ∃ maxes, channels.mapM pyMax = .ok maxes ∧ maxes.max? = channels.flatten.max? := by
  induction channels with
  | nil => exact ⟨[], rfl, by simp⟩
  | cons c cs ih =>
    obtain ⟨ms, hms, hmax⟩ := ih (fun d hd => hch d (List.mem_cons_of_mem _ hd))
    cases hc : c with
    | nil => exact absurd hc (hch c (List.mem_cons_self _ _))
    | cons x xs =>
      refine ⟨xs.foldl max x :: ms, ?_, ?_⟩
      · rw [List.mapM_cons]
        simp only [pyMax, hms, bind, Except.bind, pure, Except.pure]
      · simp only [List.max?, List.flatten_cons, List.cons_append,
          List.foldl_append, Option.some.injEq]
        rw [foldl_max_eq (xs.foldl max x) ms, foldl_max_eq (xs.foldl max x) cs.flatten, hmax]

/-- C5: compute_preamp_db returns 0 when the global maximum correction
gain is nonpositive and -(max_gain + headroom) otherwise, for every
nonempty collection of channels with nonempty correction curves.  The
concrete instances of the claim are covered by the witness below. -/
theorem compute_preamp_db_policy (channels : List (List ℚ)) (m : ℚ)
    (hne : channels ≠ []) (hch : ∀ c ∈ channels, c ≠ [])
    (hm : channels.flatten.max? = some m) :
    (m ≤ 0 → compute_preamp_db channels 1 = .ok 0) ∧
    (0 < m → compute_preamp_db channels 1 = .ok (-(m + 1))) := by
  obtain ⟨maxes, hmapM, hmax⟩ := preamp_mapM channels hch
  rw [hm] at hmax
  have hpy : pyMax maxes = .ok m := pyMax_eq_max? _ _ hmax
  have hloop : List.mapM.loop pyMax channels [] = Except.ok maxes := hmapM
  constructor
  · intro hle
    simp [compute_preamp_db, hne, hmapM, hloop, hpy, hle, bind, Except.bind,
      pure, Except.pure]
  · intro hlt
    simp [compute_preamp_db, hne, hmapM, hloop, hpy, not_le.mpr hlt, bind,
      Except.bind, pure, Except.pure]
    try congr 1
    try ring

/-- Witness for compute_preamp_db_policy: the two concrete curve
collections named by the claim evaluate to -4 and 0 respectively. -/
theorem compute_preamp_db_policy_witness :
    compute_preamp_db [[-1, 23/10, 0], [3/2, 3, -4]] 1 = .ok (-4) ∧
    compute_preamp_db [[-3, -1], [-1/2, 0]] 1 = .ok 0 := by
  constructor
  · have h := (compute_preamp_db_policy [[-1, 23/10, 0], [3/2, 3, -4]] 3
      (by simp) (by simp)
      (by norm_num [List.max?, max_def])).2 (by norm_num)
    rw [h]
    norm_num
  · exact (compute_preamp_db_policy [[-3, -1], [-1/2, 0]] 0
      (by simp) (by simp)
      (by norm_num [List.max?, max_def])).1 le_rfl

theorem errOf_eq_some (r : Except Err Profile) (e : Err) (h : errOf r = some e) :
    r = .error e := by
  cases r with
  | ok p => simp [errOf] at h
  | error e2 => simp [errOf] at h; rw [h]

theorem findSub_ge (data pat : List ℕ) (start stop i : ℕ)
    (h : findSub data pat start stop = some i) : start ≤ i := by
  unfold findSub at h
  have hm := List.mem_of_find?_eq_some h
  rw [List.mem_range'] at hm
  obtain ⟨k, _, rfl⟩ := hm
  omega

theorem findAllOv_nil_iff (data pat : List ℕ) (fuel : ℕ) :
    findAllOv data pat (fuel + 1) 0 = [] ↔ findSub data pat 0 data.length = none := by
  rw [findAllOv]
  cases h : findSub data pat 0 data.length with
  | none => simp
  | some i => simp

/-- C8: a buffer without the literal project-header terminator fails with
MissingHeader; a buffer containing the terminator but no occurrence of the
8-byte data-block marker fails with NoDataBlocks. -/
theorem parse_swproj_header_errors (data : List ℕ) (rs : Bool) :
    (findSub data PROJECT_HEADER_END 0 data.length = none →
      parse_swproj data rs = .error .missingHeader) ∧
    ((findSub data PROJECT_HEADER_END 0 data.length).isSome →
      findSub data DATA_HEADER 0 data.length = none →
      parse_swproj data rs = .error .noDataBlocks) := by
  constructor
  · intro h
    unfold parse_swproj
    rw [h]
  · intro hsome hnone
    obtain ⟨x, hx⟩ := Option.isSome_iff_exists.mp hsome
    unfold parse_swproj
    rw [hx]
    have hempty : findAllOv data DATA_HEADER (data.length + 1) 0 = [] :=
      (findAllOv_nil_iff data DATA_HEADER data.length).mpr hnone
    simp [hempty]

/-- Witness for parse_swproj_header_errors: a literal junk buffer fails
with MissingHeader, and a buffer that is exactly the header terminator
fails with NoDataBlocks. -/
theorem parse_swproj_header_errors_witness :
    parse_swproj [0] true = .error .missingHeader ∧
    parse_swproj PROJECT_HEADER_END true = .error .noDataBlocks :=
  ⟨(parse_swproj_header_errors [0] true).1 (by decide),
   (parse_swproj_header_errors PROJECT_HEADER_END true).2 (by decide) (by decide)⟩

theorem metaLoop_terminates (data : List ℕ) (endp : ℕ) :
    ∀ fuel pos meta, endp - pos ≤ fuel → (metaLoopF data endp fuel pos meta).isSome := by
  intro fuel
  induction fuel using Nat.strong_induction_on with
  | _ fuel ih =>
    intro pos meta hle
    by_cases hend : endp ≤ pos
    · cases fuel with
      | zero => simp [metaLoopF, hend]
      | succ f => simp [metaLoopF, hend]
    · have hpos : pos < endp := lt_of_not_le hend
      have hfuel : 0 < fuel := by omega
      obtain ⟨f, rfl⟩ : ∃ f, fuel = f + 1 := ⟨fuel - 1, by omega⟩
      rw [metaLoopF]
      rw [if_neg hend]
      cases hfind : findSub data [0] pos (pos + 100) with
      | none => exact ih f (by omega) (pos + 1) meta (by omega)
      | some np =>
        have hnp : pos ≤ np := findSub_ge _ _ _ _ _ hfind
        dsimp only
        by_cases h50 : 50 < np - pos
        · rw [if_pos h50]
          exact ih f (by omega) (pos + 1) meta (by omega)
        · rw [if_neg h50]
          by_cases hkey : (!((decodeAsciiReplace (slice data pos np)).all pyPrintable) ||
              (decodeAsciiReplace (slice data pos np)).length < 2) = true
          · simp only [hkey, if_true]
            exact ih f (by omega) (pos + 1) meta (by omega)
          · simp only [if_neg hkey]
            by_cases hbreak : data.length < np + 1 + 4
            · rw [if_pos hbreak]
              simp
            · rw [if_neg hbreak]
              by_cases h200 : 200 < leU32 data (np + 1)
              · rw [if_pos h200]
                exact ih f (by omega) (pos + 1) meta (by omega)
              · rw [if_neg h200]
                exact ih f (by omega) (np + 1 + 4 + leU32 data (np + 1)) _ (by omega)

/-- C10: the metadata scan loop of _parse_metadata terminates on every
buffer, start position and boundary list: the fuel endp - start, the
number of bytes between the cursor and the loop bound, always suffices,
because a resync step advances the cursor by one byte and an accepted
record advances it past the NUL, the length field and the value. -/
theorem parseMetadata_total (data : List ℕ) (start_pos : ℕ) (boundaries : List ℕ) :
    (metaLoopF data (metaEnd boundaries start_pos data.length)
      (metaEnd boundaries start_pos data.length - start_pos) start_pos []).isSome :=
  metaLoop_terminates data _ _ start_pos [] le_rfl

theorem exceptMapM_error {α β : Type} (f : α → Except Err β) :
    ∀ (l : List α) (e : Err), l.mapM f = .error e → ∃ x ∈ l, f x = .error e := by
  intro l
  induction l with
  | nil =>
    intro e h
    rw [List.mapM_nil] at h
    simp [pure, Except.pure] at h
  | cons a l ih =>
    intro e h
    rw [List.mapM_cons] at h
    cases hfa : f a with
    | error e2 =>
      rw [hfa] at h
      simp [bind, Except.bind] at h
      exact ⟨a, List.mem_cons_self _ _, by rw [hfa, h]⟩
    | ok y =>
      rw [hfa] at h
      simp only [bind, Except.bind] at h
      cases hml : l.mapM f with
      | error e2 =>
        rw [hml] at h
        simp at h
        obtain ⟨x, hx, hfx⟩ := ih e2 hml
        exact ⟨x, List.mem_cons_of_mem _ hx, by rw [hfx, h]⟩
      | ok ys =>
        rw [hml] at h
        simp [pure, Except.pure] at h

theorem exceptMapM_ok {α β : Type} (f : α → Except Err β) :
    ∀ (l : List α) (res : List β), l.mapM f = .ok res →
      res.length = l.length ∧ ∀ y ∈ res, ∃ x ∈ l, f x = .ok y := by
  intro l
  induction l with
  | nil =>
    intro res h
    rw [List.mapM_nil] at h
    simp [pure, Except.pure] at h
    subst h
    simp
  | cons a l ih =>
    intro res h
    rw [List.mapM_cons] at h
    cases hfa : f a with
    | error e2 => rw [hfa] at h; simp [bind, Except.bind] at h
    | ok y =>
      rw [hfa] at h
      simp only [bind, Except.bind] at h
      cases hml : l.mapM f with
      | error e2 => rw [hml] at h; simp at h
      | ok ys =>
        rw [hml] at h
        simp [pure, Except.pure] at h
        obtain ⟨hlen, hmem⟩ := ih ys hml
        subst h
        refine ⟨by simp [hlen], ?_⟩
        intro z hz
        rcases List.mem_cons.mp hz with hz | hz
        · exact ⟨a, List.mem_cons_self _ _, by rw [hfa, hz]⟩
        · obtain ⟨x, hx, hfx⟩ := hmem z hz
          exact ⟨x, List.mem_cons_of_mem _ hx, hfx⟩

theorem exceptFoldlM_error {σ α : Type} (f : σ → α → Except Err σ) :
    ∀ (l : List α) (s : σ) (e : Err), l.foldlM f s = .error e →
      ∃ s' x, x ∈ l ∧ f s' x = .error e := by
  intro l
  induction l with
  | nil => intro s e h; simp [List.foldlM_nil, pure, Except.pure] at h
  | cons a l ih =>
    intro s e h
    rw [List.foldlM_cons] at h
    cases hfa : f s a with
    | error e2 =>
      rw [hfa] at h
      simp [bind, Except.bind] at h
      exact ⟨s, a, List.mem_cons_self _ _, by rw [hfa, h]⟩
    | ok s2 =>
      rw [hfa] at h
      simp only [bind, Except.bind] at h
      obtain ⟨s', x, hx, hfx⟩ := ih s2 e h
      exact ⟨s', x, List.mem_cons_of_mem _ hx, hfx⟩

theorem exceptFoldlM_invariant {σ α : Type} (P : σ → Prop) (f : σ → α → Except Err σ)
    (hstep : ∀ s a s', P s → f s a = .ok s' → P s') :
    ∀ (l : List α) (s : σ), P s → ∀ s', l.foldlM f s = .ok s' → P s' := by
  intro l
  induction l with
  | nil =>
    intro s hs s' h
    simp [List.foldlM_nil, pure, Except.pure] at h
    rwa [← h]
  | cons a l ih =>
    intro s hs s' h
    rw [List.foldlM_cons] at h
    cases hfa : f s a with
    | error e2 => rw [hfa] at h; simp [bind, Except.bind] at h
    | ok s2 =>
      rw [hfa] at h
      simp only [bind, Except.bind] at h
      exact ih s2 (hstep s a s2 hs hfa) s' h

theorem unpackF32_error (data : List ℕ) (off : ℕ) (e : Err)
    (h : unpackF32 data off = .error e) : e = .structError := by
  unfold unpackF32 at h
  split at h
  · simp at h
  · simp at h
    rw [h]

theorem readPoint_error (data : List ℕ) (fs fpp i : ℕ) (e : Err)
    (h : readPoint data fs fpp i = .error e) : e = .structError := by
  unfold readPoint at h
  cases h1 : unpackF32 data (fs + i * fpp * 4) with
  | error e2 =>
    rw [h1] at h
    simp [bind, Except.bind] at h
    exact h ▸ unpackF32_error _ _ _ h1
  | ok freq =>
    rw [h1] at h
    simp only [bind, Except.bind] at h
    cases h2 : unpackF32 data (fs + i * fpp * 4 + 4) with
    | error e2 =>
      rw [h2] at h
      simp at h
      exact h ▸ unpackF32_error _ _ _ h2
    | ok v =>
      rw [h2] at h
      simp [pure, Except.pure] at h

theorem parseBlock_error (data boundaries : List ℕ) (header : ℕ) (e : Err)
    (h : parseBlock data boundaries header = .error e) : e = .structError := by
  unfold parseBlock at h
  cases hm : (List.range POINTS_PER_CURVE).mapM
      (readPoint data (header + 8) (blockFpp data boundaries header)) with
  | error e2 =>
    rw [hm] at h
    simp [bind, Except.bind] at h
    obtain ⟨x, _, hfx⟩ := exceptMapM_error _ _ _ hm
    exact h ▸ readPoint_error _ _ _ _ _ hfx
  | ok pts =>
    rw [hm] at h
    simp [bind, Except.bind, pure, Except.pure] at h

theorem parseBlocks_error (data data_headers boundaries : List ℕ) (e : Err)
    (h : parseBlocks data data_headers boundaries = .error e) : e = .structError := by
  obtain ⟨x, _, hfx⟩ := exceptMapM_error _ _ _ h
  exact parseBlock_error _ _ _ _ hfx

theorem resolveIdx_error (meta : List (List ℕ × List ℕ)) (i : ℕ) (e : Err)
    (h : resolveIdx meta i = .error e) : e = .convError := by
  unfold resolveIdx at h
  split at h
  · simp at h
  · split at h
    · simp at h
    · simp at h
      rw [h]

theorem applyDelay_error (delay_str : List ℕ) (chans : List ((List ℕ × ℤ) × ChannelData))
    (key : List ℕ × ℤ) (e : Err)
    (h : applyDelay delay_str chans key = .error e) : e = .convError := by
  unfold applyDelay at h
  split at h
  · simp [pure, Except.pure] at h
  · split at h
    · simp at h
      rw [h]
    · split at h
      · simp [pure, Except.pure] at h
      · simp [pure, Except.pure] at h

theorem assembleStep_error (data boundaries : List ℕ)
    (chans : List ((List ℕ × ℤ) × ChannelData)) (ie : ℕ × ℕ) (e : Err)
    (h : assembleStep data boundaries chans ie = .error e) : e = .convError := by
  unfold assembleStep at h
  cases hr : resolveIdx (parseMetadata data ie.2 boundaries) ie.1 with
  | error e2 =>
    rw [hr] at h
    simp [Except.bind] at h
    exact h ▸ resolveIdx_error _ _ _ hr
  | ok v =>
    rw [hr] at h
    simp only [Except.bind] at h
    exact applyDelay_error _ _ _ _ h

theorem assembleChannels_error (data delay_positions boundaries : List ℕ) (e : Err)
    (h : assembleChannels data delay_positions boundaries = .error e) : e = .convError := by
  obtain ⟨s', x, _, hfx⟩ := exceptFoldlM_error _ _ _ _ h
  exact assembleStep_error _ _ _ _ _ hfx

/-- C7 (amended): parse either returns a fully assembled Profile or fails,
and every failure is one of the declared kinds MissingHeader, NoDataBlocks
and ChannelCountMismatch, or one of two undeclared Python failure modes of
the source: a struct.error from an out-of-range unpack_from in
_parse_blocks, or a ValueError from int()/float() on a malformed metadata
value; in particular parse never fails with InvalidCurve or any other
kind, and no partially populated Profile is surfaced. -/
theorem parse_swproj_error_kinds (data : List ℕ) (rs : Bool) (e : Err)
    (h : parse_swproj data rs = .error e) :
    e = .missingHeader ∨ e = .noDataBlocks ∨ e = .channelCountMismatch ∨
      e = .structError ∨ e = .convError := by
  unfold parse_swproj at h
  cases hf : findSub data PROJECT_HEADER_END 0 data.length with
  | none =>
    rw [hf] at h
    simp at h
    exact Or.inl h.symm
  | some x =>
    rw [hf] at h
    by_cases hd : findAllOv data DATA_HEADER (data.length + 1) 0 = []
    · rw [if_pos hd] at h
      simp at h
      exact Or.inr (Or.inl h.symm)
    · rw [if_neg hd] at h
      unfold parseTail at h
      cases hb : parseBlocks data (findAllOv data DATA_HEADER (data.length + 1) 0)
          (List.insertionSort (fun a b => a ≤ b)
            (findAllOv data DATA_HEADER (data.length + 1) 0 ++
              findAllNo data CHANNEL_DELAY_MS (data.length + 1) 0)) with
      | error e2 =>
        rw [hb] at h
        simp [Except.bind] at h
        exact Or.inr (Or.inr (Or.inr (Or.inl (h ▸ parseBlocks_error _ _ _ _ hb))))
      | ok blocks =>
        rw [hb] at h
        simp only [Except.bind] at h
        cases hc : assembleChannels data (findAllNo data CHANNEL_DELAY_MS (data.length + 1) 0)
            (List.insertionSort (fun a b => a ≤ b)
              (findAllOv data DATA_HEADER (data.length + 1) 0 ++
                findAllNo data CHANNEL_DELAY_MS (data.length + 1) 0)) with
        | error e2 =>
          rw [hc] at h
          simp [Except.bind] at h
          exact Or.inr (Or.inr (Or.inr (Or.inr (h ▸ assembleChannels_error _ _ _ _ hc))))
        | ok chans =>
          rw [hc] at h
          simp only [Except.bind] at h
          split at h
          · simp at h
            exact Or.inr (Or.inr (Or.inl h.symm))
          · simp at h

set_option maxRecDepth 100000 in
/-- C7 counterexample: a buffer whose data-block marker sits at the end of
the buffer makes parse fail with a struct out-of-range error, which is
none of the three declared ParseError kinds. -/
theorem parse_swproj_error_kinds_counterexample :
    errOf (parse_swproj c7buf true) = some .structError ∧
    Err.structError ≠ Err.missingHeader ∧ Err.structError ≠ Err.noDataBlocks ∧
      Err.structError ≠ Err.channelCountMismatch := by decide

set_option maxRecDepth 100000 in
/-- Witness for parse_swproj_error_kinds at the concrete buffer c7buf. -/
theorem parse_swproj_error_kinds_witness :
    Err.structError = Err.missingHeader ∨ Err.structError = Err.noDataBlocks ∨
      Err.structError = Err.channelCountMismatch ∨ Err.structError = Err.structError ∨
      Err.structError = Err.convError :=
  parse_swproj_error_kinds c7buf true .structError
    (errOf_eq_some _ _ (by decide))

theorem extendChannels_mem (chans : List ((List ℕ × ℤ) × ChannelData))
    (key : List ℕ × ℤ) (grp : List ℕ) :
    ∀ e ∈ extendChannels chans key grp,
      e ∈ chans ∨ e = (key, ⟨key.1, key.2, grp, .fin 0 0, [], [], []⟩) := by
  intro e he
  unfold extendChannels at he
  split at he
  · exact Or.inl he
  · rcases List.mem_append.mp he with h | h
    · exact Or.inl h
    · simp only [List.mem_singleton] at h
      exact Or.inr h

theorem extendChannels_pairwise (chans : List ((List ℕ × ℤ) × ChannelData))
    (key : List ℕ × ℤ) (grp : List ℕ)
    (hpw : chans.Pairwise (fun a b => a.1 ≠ b.1)) :
    (extendChannels chans key grp).Pairwise (fun a b => a.1 ≠ b.1) := by
  unfold extendChannels
  split
  · exact hpw
  · rename_i hany
    rw [List.pairwise_append]
    refine ⟨hpw, List.pairwise_singleton _ _, ?_⟩
    intro a ha b hb
    simp only [List.mem_singleton] at hb
    subst hb
    intro hcontra
    exact hany (List.any_eq_true.mpr ⟨a, ha, beq_iff_eq.mpr hcontra⟩)

theorem extendChannels_inv (chans : List ((List ℕ × ℤ) × ChannelData))
    (key : List ℕ × ℤ) (grp : List ℕ) (hinv : StateInv chans) :
    StateInv (extendChannels chans key grp) := by
  constructor
  · intro e he
    rcases extendChannels_mem chans key grp e he with h | h
    · exact hinv.1 e h
    · subst h
      exact ⟨rfl, rfl, rfl, rfl⟩
  · exact extendChannels_pairwise chans key grp hinv.2

theorem updateDelay_fst_eq (key : List ℕ × ℤ) (v : PyFloat)
    (e : (List ℕ × ℤ) × ChannelData) :
    ((if e.1 == key then (e.1, { e.2 with delay_ms := v }) else e)).1 = e.1 := by
  split <;> rfl

theorem updateDelay_inv (chans : List ((List ℕ × ℤ) × ChannelData))
    (key : List ℕ × ℤ) (v : PyFloat) (hinv : StateInv chans) :
    StateInv (updateDelay chans key v) := by
  constructor
  · intro e he
    unfold updateDelay at he
    obtain ⟨e0, he0, rfl⟩ := List.mem_map.mp he
    obtain ⟨h1, h2, h3, h4⟩ := hinv.1 e0 he0
    by_cases hk : (e0.1 == key) = true <;> simp [hk, EntryInv] <;>
      exact ⟨h1, h2, h3, h4⟩
  · unfold updateDelay
    refine List.Pairwise.map _ ?_ hinv.2
    intro a b hab
    rw [updateDelay_fst_eq, updateDelay_fst_eq]
    exact hab

theorem applyDelay_ok (ds : List ℕ) (chans : List ((List ℕ × ℤ) × ChannelData))
    (key : List ℕ × ℤ) (chans' : List ((List ℕ × ℤ) × ChannelData))
    (h : applyDelay ds chans key = .ok chans') :
    chans' = chans ∨ ∃ v, chans' = updateDelay chans key v := by
  unfold applyDelay at h
  split at h
  · simp [pure, Except.pure] at h
    exact Or.inl h.symm
  · split at h
    · simp at h
    · split at h
      · simp [pure, Except.pure] at h
        exact Or.inl h.symm
      · simp [pure, Except.pure] at h
        exact Or.inr ⟨_, h.symm⟩

theorem assembleStep_inv (data boundaries : List ℕ)
    (chans : List ((List ℕ × ℤ) × ChannelData)) (ie : ℕ × ℕ)
    (chans' : List ((List ℕ × ℤ) × ChannelData))
    (hinv : StateInv chans)
    (h : assembleStep data boundaries chans ie = .ok chans') :
    StateInv chans' := by
  unfold assembleStep at h
  cases hr : resolveIdx (parseMetadata data ie.2 boundaries) ie.1 with
  | error e =>
    rw [hr] at h
    simp [Except.bind] at h
  | ok v =>
    rw [hr] at h
    simp only [Except.bind] at h
    have hext := extendChannels_inv chans
      ((metaGet (parseMetadata data ie.2 boundaries) KEY_CHANNEL_NAME).getD
        (defaultChannelName ie.1), v)
      ((metaGet (parseMetadata data ie.2 boundaries) KEY_CHANNEL_GROUP).getD []) hinv
    rcases applyDelay_ok _ _ _ _ h with heq | ⟨w, heq⟩
    · exact heq ▸ hext
    · exact heq ▸ updateDelay_inv _ _ _ hext

theorem assembleChannels_inv (data delay_positions boundaries : List ℕ)
    (chans : List ((List ℕ × ℤ) × ChannelData))
    (h : assembleChannels data delay_positions boundaries = .ok chans) :
    StateInv chans :=
  exceptFoldlM_invariant StateInv _
    (fun s a s' hs hst => assembleStep_inv data boundaries s a s' hs hst)
    delay_positions.enum [] ⟨by simp, List.Pairwise.nil⟩ chans h

theorem parseBlocks_ok_lengths (data data_headers boundaries : List ℕ)
    (blocks : List Block)
    (h : parseBlocks data data_headers boundaries = .ok blocks) :
    ∀ b ∈ blocks, b.freqs.length = POINTS_PER_CURVE ∧
      b.values.length = POINTS_PER_CURVE := by
  intro b hb
  obtain ⟨x, _, hfx⟩ := (exceptMapM_ok _ _ _ h).2 b hb
  unfold parseBlock at hfx
  cases hm : (List.range POINTS_PER_CURVE).mapM
      (readPoint data (x + 8) (blockFpp data boundaries x)) with
  | error e =>
    rw [hm] at hfx
    simp [Except.bind] at hfx
  | ok pts =>
    rw [hm] at hfx
    simp only [bind, Except.bind, pure, Except.pure, Except.ok.injEq] at hfx
    have hlen := (exceptMapM_ok _ _ _ hm).1
    rw [List.length_range] at hlen
    rw [← hfx]
    simp [hlen]

theorem getD_mem {α : Type} (l : List α) (n : ℕ) (d : α) (h : n < l.length) :
    l.getD n d ∈ l := by
  rw [List.getD_eq_getElem l d h]
  exact List.getElem_mem h

theorem assignBlocks_shape (blocks : List Block) (chs : List ChannelData)
    (hblocks : ∀ b ∈ blocks, b.freqs.length = POINTS_PER_CURVE ∧
      b.values.length = POINTS_PER_CURVE)
    (hch : ∀ ch ∈ chs, ch.frequencies = [] ∧ ch.correction_dB = [] ∧
      ch.measurement_dB = []) :
    ∀ ch ∈ assignBlocks blocks chs,
      ch.frequencies.length = ch.correction_dB.length ∧
      (ch.frequencies.length = POINTS_PER_CURVE ∨ ch.frequencies.length = 0) ∧
      (ch.measurement_dB.length = POINTS_PER_CURVE ∨ ch.measurement_dB.length = 0) := by
  intro ch hmem
  unfold assignBlocks at hmem
  obtain ⟨ic, hic, rfl⟩ := List.mem_map.mp hmem
  have hic2 : ic.2 ∈ chs := by
    rw [← List.enum_map_snd chs]
    exact List.mem_map_of_mem _ hic
  obtain ⟨hf, hc, hm2⟩ := hch ic.2 hic2
  by_cases h1 : 2 * ic.1 < blocks.length <;>
    by_cases h2 : 2 * ic.1 + 1 < blocks.length
  · obtain ⟨hb1, hb2⟩ := hblocks _ (getD_mem blocks (2 * ic.1) ⟨0, [], []⟩ h1)
    obtain ⟨hb3, hb4⟩ := hblocks _ (getD_mem blocks (2 * ic.1 + 1) ⟨0, [], []⟩ h2)
    simp only [if_pos h1, if_pos h2]
    exact ⟨by rw [hb1, hb2], Or.inl hb1, Or.inl hb4⟩
  · obtain ⟨hb1, hb2⟩ := hblocks _ (getD_mem blocks (2 * ic.1) ⟨0, [], []⟩ h1)
    simp only [if_pos h1, if_neg h2]
    exact ⟨by rw [hb1, hb2], Or.inl hb1, Or.inr (by rw [hm2]; rfl)⟩
  · omega
  · simp only [if_neg h1, if_neg h2]
    exact ⟨by rw [hf, hc], Or.inr (by rw [hf]; rfl), Or.inr (by rw [hm2]; rfl)⟩

theorem assignBlocks_map_key (blocks : List Block) (chs : List ChannelData) :
    (assignBlocks blocks chs).map (fun c => (c.name, c.index)) =
      chs.map (fun c => (c.name, c.index)) := by
  unfold assignBlocks
  rw [List.map_map]
  have hfun : ∀ ic : ℕ × ChannelData,
      ((fun c : ChannelData => (c.name, c.index)) ∘ (fun ic : ℕ × ChannelData =>
        let i := ic.1
        let ch := ic.2
        let ch := if 2 * i < blocks.length then
            { ch with frequencies := (blocks.getD (2 * i) ⟨0, [], []⟩).freqs,
                      correction_dB := (blocks.getD (2 * i) ⟨0, [], []⟩).values }
          else ch
        if 2 * i + 1 < blocks.length then
          { ch with measurement_dB := (blocks.getD (2 * i + 1) ⟨0, [], []⟩).values }
        else ch)) ic = (ic.2.name, ic.2.index) := by
    intro ic
    dsimp only [Function.comp]
    split <;> split <;> rfl
  rw [funext hfun]
  rw [show (fun ic : ℕ × ChannelData => (ic.2.name, ic.2.index)) =
    ((fun c : ChannelData => (c.name, c.index)) ∘ Prod.snd) from rfl]
  rw [← List.map_map, List.enum_map_snd]

/-- C1 (amended): for every input on which parse succeeds, every channel
of the returned Profile has frequencies and correction_dB of one common
length, namely 355 when a data block was assigned to the channel and 0
otherwise, measurement_dB of length 355 or 0, and the channel set is
unique by the pair (name, index).  The parser performs no monotonicity
check, so the frequency grid need not be strictly increasing. -/
theorem parse_swproj_profile_invariants (data : List ℕ) (rs : Bool) (p : Profile)
    (h : parse_swproj data rs = .ok p) :
    (∀ ch ∈ p.channels,
      ch.frequencies.length = ch.correction_dB.length ∧
      (ch.frequencies.length = 355 ∨ ch.frequencies.length = 0) ∧
      (ch.measurement_dB.length = 355 ∨ ch.measurement_dB.length = 0)) ∧
    p.channels.Pairwise (fun a b => a.name ≠ b.name ∨ a.index ≠ b.index) := by
  unfold parse_swproj at h
  cases hf : findSub data PROJECT_HEADER_END 0 data.length with
  | none => rw [hf] at h; simp at h
  | some x =>
    rw [hf] at h
    by_cases hd : findAllOv data DATA_HEADER (data.length + 1) 0 = []
    · rw [if_pos hd] at h
      simp at h
    · rw [if_neg hd] at h
      unfold parseTail at h
      cases hb : parseBlocks data (findAllOv data DATA_HEADER (data.length + 1) 0)
          (List.insertionSort (fun a b => a ≤ b)
            (findAllOv data DATA_HEADER (data.length + 1) 0 ++
              findAllNo data CHANNEL_DELAY_MS (data.length + 1) 0)) with
      | error e => rw [hb] at h; simp [Except.bind] at h
      | ok blocks =>
        rw [hb] at h
        simp only [Except.bind] at h
        cases hc : assembleChannels data (findAllNo data CHANNEL_DELAY_MS (data.length + 1) 0)
            (List.insertionSort (fun a b => a ≤ b)
              (findAllOv data DATA_HEADER (data.length + 1) 0 ++
                findAllNo data CHANNEL_DELAY_MS (data.length + 1) 0)) with
        | error e => rw [hc] at h; simp [Except.bind] at h
        | ok chans =>
          rw [hc] at h
          simp only [Except.bind] at h
          split at h
          · simp at h
          · simp only [Except.ok.injEq] at h
            subst h
            obtain ⟨hentries, hkeys⟩ := assembleChannels_inv _ _ _ _ hc
            have hbl := parseBlocks_ok_lengths _ _ _ _ hb
            have hperm := List.perm_insertionSort
              (fun a b : ChannelData => a.index ≤ b.index) (chans.map Prod.snd)
            constructor
            · -- curve lengths
              refine assignBlocks_shape blocks _ hbl ?_
              intro ch hchmem
              have : ch ∈ chans.map Prod.snd := (hperm.mem_iff).mp hchmem
              obtain ⟨e, he, rfl⟩ := List.mem_map.mp this
              obtain ⟨_, h2, h3, h4⟩ := hentries e he
              exact ⟨h2, h3, h4⟩
            · -- uniqueness by (name, index)
              have hkey2 : (chans.map Prod.snd).Pairwise
                  (fun a b : ChannelData => (a.name, a.index) ≠ (b.name, b.index)) := by
                rw [List.pairwise_map]
                refine List.Pairwise.imp_of_mem ?_ hkeys
                intro e1 e2 he1 he2 hne
                have k1 := (hentries e1 he1).1
                have k2 := (hentries e2 he2).1
                rw [← k1, ← k2]
                exact hne
              have hsorted : (sortChannels (chans.map Prod.snd)).Pairwise
                  (fun a b : ChannelData => (a.name, a.index) ≠ (b.name, b.index)) := by
                unfold sortChannels
                exact ((List.Perm.pairwise_iff (fun hxy => hxy ∘ Eq.symm) hperm).mpr) hkey2
              have hassigned : (assignBlocks blocks
                  (sortChannels (chans.map Prod.snd))).Pairwise
                  (fun a b : ChannelData => (a.name, a.index) ≠ (b.name, b.index)) := by
                have hmapped := congrArg (List.Pairwise (fun a b : List ℕ × ℤ => a ≠ b))
                  (assignBlocks_map_key blocks (sortChannels (chans.map Prod.snd)))
                rw [List.pairwise_map, List.pairwise_map] at hmapped
                rw [hmapped]
                exact hsorted
              refine hassigned.imp ?_
              intro a b hne
              by_contra hcon
              push_neg at hcon
              exact hne (by rw [hcon.1, hcon.2])

set_option maxRecDepth 100000 in
/-- C1 counterexample: parse succeeds on c1buf, yet the returned channel
has a frequency grid of 355 copies of 0.0 — not strictly increasing — so
the claim as stated is false at this input. -/
theorem parse_swproj_profile_counterexample :
    checkC1 (parse_swproj c1buf false) = some false := by decide

set_option maxRecDepth 100000 in
/-- Witness for parse_swproj_profile_invariants at the concrete buffer
c1buf, whose parse succeeds with the explicit profile c1profile. -/
theorem parse_swproj_profile_invariants_witness :
    (∀ ch ∈ c1profile.channels,
      ch.frequencies.length = ch.correction_dB.length ∧
      (ch.frequencies.length = 355 ∨ ch.frequencies.length = 0) ∧
      (ch.measurement_dB.length = 355 ∨ ch.measurement_dB.length = 0)) ∧
    c1profile.channels.Pairwise (fun a b => a.name ≠ b.name ∨ a.index ≠ b.index) :=
  parse_swproj_profile_invariants c1buf false c1profile (by decide)

theorem interpBin_error_kinds (freqs gains : List ℚ) (bf : ℚ) (e : Err)
    (h : interpBin freqs gains bf = .error e) : e = .indexError ∨ e = .mathDomain := by
  unfold interpBin at h
  split at h
  · simp at h
    exact Or.inl h.symm
  · split at h
    · split at h
      · simp at h
        exact Or.inl h.symm
      · simp at h
    · split at h
      · split at h
        · simp at h
          exact Or.inl h.symm
        · simp at h
      · dsimp only at h
        split at h
        · split at h
          · simp at h
            exact Or.inr h.symm
          · split at h
            · simp at h
              exact Or.inl h.symm
            · simp at h
        · split at h
          · simp at h
            exact Or.inl h.symm
          · simp at h

theorem freq_response_to_ir_error_kinds (freqs gains : List ℚ) (sr : ℚ) (L : ℕ) (e : Err)
    (h : freq_response_to_ir freqs gains sr L = .error e) :
    e = .indexError ∨ e = .mathDomain := by
  unfold freq_response_to_ir at h
  cases hig : interpGains freqs gains sr L with
  | error e2 =>
    rw [hig] at h
    simp [Except.map] at h
    obtain ⟨x, _, hfx⟩ := exceptMapM_error _ _ _ hig
    exact h ▸ interpBin_error_kinds _ _ _ _ hfx
  | ok ig =>
    rw [hig] at h
    simp [Except.map] at h

/-- C9 (amended): the synthesizer performs no curve validation: it never
fails with InvalidCurve — its only failure modes are an IndexError from an
empty curve and a math domain error from log of a nonpositive frequency —
and in particular a 0-point curve fails with IndexError while a 1-point
curve is accepted. -/
theorem freq_response_to_ir_validation (freqs gains : List ℚ) (sr : ℚ) (L : ℕ) (e : Err)
    (h : freq_response_to_ir freqs gains sr L = .error e) :
    e ≠ .invalidCurve ∧ (e = .indexError ∨ e = .mathDomain) := by
  have hk := freq_response_to_ir_error_kinds freqs gains sr L e h
  refine ⟨?_, hk⟩
  rcases hk with rfl | rfl <;> simp

/-- C9 counterexample: the empty curve makes synthesis fail with an
IndexError, not InvalidCurve, and a one-point curve (fewer than 2 points)
is accepted rather than rejected; so the claimed InvalidCurve rejection is
false on the code. -/
theorem freq_response_to_ir_validation_counterexample :
    freq_response_to_ir [] [] 48000 4 = .error .indexError ∧
    Err.indexError ≠ Err.invalidCurve ∧
    (freq_response_to_ir [1] [0] 48000 4).isOk = true := by
  refine ⟨rfl, by simp, ?_⟩
  with_unfolding_all rfl

/-- Witness for freq_response_to_ir_validation at the empty curve. -/
theorem freq_response_to_ir_validation_witness :
    Err.indexError ≠ Err.invalidCurve ∧
      (Err.indexError = Err.indexError ∨ Err.indexError = Err.mathDomain) :=
  freq_response_to_ir_validation [] [] 48000 4 .indexError rfl

theorem bsearchGo_bounds (freqs : List ℚ) (bf : ℚ) :
    ∀ (fuel lo hi : ℕ), lo < hi →
      lo ≤ (bsearchGo freqs bf fuel lo hi).1 ∧
      (bsearchGo freqs bf fuel lo hi).2 ≤ hi ∧
      (bsearchGo freqs bf fuel lo hi).1 < (bsearchGo freqs bf fuel lo hi).2 := by
  intro fuel
  induction fuel with
  | zero =>
    intro lo hi h
    rw [bsearchGo]
    exact ⟨le_refl _, le_refl _, h⟩
  | succ f ih =>
    intro lo hi h
    rw [bsearchGo]
    by_cases hgap : 1 < hi - lo
    · rw [if_pos hgap]
      by_cases hcmp : freqs.getD ((lo + hi) / 2) 0 ≤ bf
      · rw [if_pos hcmp]
        have hmid : lo < (lo + hi) / 2 := by omega
        have := ih ((lo + hi) / 2) hi (by omega)
        exact ⟨le_trans (le_of_lt hmid) this.1, this.2.1, this.2.2⟩
      · rw [if_neg hcmp]
        have hmid : (lo + hi) / 2 < hi := by omega
        have := ih lo ((lo + hi) / 2) (by omega)
        exact ⟨this.1, le_trans this.2.1 (le_of_lt hmid), this.2.2⟩
    · rw [if_neg hgap]
      exact ⟨le_refl _, le_refl _, h⟩

theorem bsearchGo_bracket (freqs : List ℚ) (bf : ℚ) :
    ∀ (fuel lo hi : ℕ), lo < hi → hi - lo ≤ fuel →
      freqs.getD lo 0 ≤ bf → bf < freqs.getD hi 0 →
      (bsearchGo freqs bf fuel lo hi).2 = (bsearchGo freqs bf fuel lo hi).1 + 1 ∧
      freqs.getD (bsearchGo freqs bf fuel lo hi).1 0 ≤ bf ∧
      bf < freqs.getD ((bsearchGo freqs bf fuel lo hi).1 + 1) 0 := by
  intro fuel
  induction fuel with
  | zero =>
    intro lo hi h1 h2 h3 h4
    omega
  | succ f ih =>
    intro lo hi h1 h2 h3 h4
    rw [bsearchGo]
    by_cases hgap : 1 < hi - lo
    · rw [if_pos hgap]
      by_cases hcmp : freqs.getD ((lo + hi) / 2) 0 ≤ bf
      · rw [if_pos hcmp]
        exact ih ((lo + hi) / 2) hi (by omega) (by omega) hcmp h4
      · rw [if_neg hcmp]
        push_neg at hcmp
        exact ih lo ((lo + hi) / 2) (by omega) (by omega) h3 hcmp
    · rw [if_neg hgap]
      have hhi : hi = lo + 1 := by omega
      exact ⟨by rw [hhi], h3, by rw [← hhi]; exact h4⟩

/-- C6 (amended): over a strictly increasing grid of positive frequencies,
interpolation returns the stored gain exactly at every grid frequency
(both endpoints included), gains_dB[0] exactly for every target at or
below the first grid frequency, and the last gain exactly for every target
at or above the last grid frequency.  Positivity is required: on a grid
with nonpositive frequencies the interior computation raises a math domain
error from log instead of returning the stored gain. -/
theorem interp_exact (freqs gains : List ℚ)
    (hinc : freqs.Pairwise (· < ·)) (hpos : ∀ f ∈ freqs, 0 < f)
    (hlen : gains.length = freqs.length) (hne : freqs ≠ []) :
    (∀ m, m < freqs.length →
      interpBin freqs gains (freqs.getD m 0) = .ok ((gains.getD m 0 : ℚ) : ℝ)) ∧
    (∀ bf : ℚ, bf ≤ freqs.getD 0 0 →
      interpBin freqs gains bf = .ok ((gains.getD 0 0 : ℚ) : ℝ)) ∧
    (∀ bf : ℚ, freqs.getD (freqs.length - 1) 0 ≤ bf →
      interpBin freqs gains bf = .ok ((gains.getD (gains.length - 1) 0 : ℚ) : ℝ)) := by
  obtain ⟨f0, fr, rfl⟩ : ∃ f0 fr, freqs = f0 :: fr := by
    cases freqs with
    | nil => exact absurd rfl hne
    | cons a l => exact ⟨a, l, rfl⟩
  obtain ⟨g0, gr, rfl⟩ : ∃ g0 gr, gains = g0 :: gr := by
    cases gains with
    | nil => simp at hlen
    | cons a l => exact ⟨a, l, rfl⟩
  have hmono : ∀ i j : ℕ, i < j → j < (f0 :: fr).length →
      (f0 :: fr).getD i 0 < (f0 :: fr).getD j 0 := by
    intro i j hij hj
    have hi : i < (f0 :: fr).length := lt_trans hij hj
    rw [List.getD_eq_getElem _ _ hi, List.getD_eq_getElem _ _ hj]
    have := List.pairwise_iff_get.mp hinc ⟨i, hi⟩ ⟨j, hj⟩ hij
    simpa using this
  have hposD : ∀ i, i < (f0 :: fr).length → 0 < (f0 :: fr).getD i 0 := by
    intro i hi
    exact hpos _ (getD_mem _ i 0 hi)
  have hlow : ∀ bf : ℚ, bf ≤ (f0 :: fr).getD 0 0 →
      interpBin (f0 :: fr) (g0 :: gr) bf = .ok (((g0 :: gr).getD 0 0 : ℚ) : ℝ) := by
    intro bf hbf
    unfold interpBin
    dsimp only
    rw [if_pos (show bf ≤ f0 by simpa using hbf)]
    rfl
  have hhigh : ∀ bf : ℚ, (f0 :: fr).getD ((f0 :: fr).length - 1) 0 ≤ bf →
      interpBin (f0 :: fr) (g0 :: gr) bf =
        .ok (((g0 :: gr).getD ((g0 :: gr).length - 1) 0 : ℚ) : ℝ) := by
    intro bf hbf
    unfold interpBin
    dsimp only
    by_cases hb0 : bf ≤ f0
    · rw [if_pos hb0]
      cases fr with
      | nil =>
        cases gr with
        | nil => rfl
        | cons g1 gs => simp at hlen
      | cons f1 fs =>
        exfalso
        have h01 : (0:ℕ) < (f0 :: f1 :: fs).length - 1 := by simp
        have := hmono 0 ((f0 :: f1 :: fs).length - 1) h01 (by simp)
        simp only [List.getD_cons_zero] at this
        exact absurd (le_trans hbf hb0) (not_le.mpr this)
    · rw [if_neg hb0, if_pos hbf, if_neg (by simp : ¬(g0 :: gr) = [])]
  refine ⟨?_, hlow, hhigh⟩
  intro m hm
  by_cases hm0 : m = 0
  · subst hm0
    exact hlow _ le_rfl
  by_cases hmlast : m = (f0 :: fr).length - 1
  · rw [hmlast]
    have hgl : (g0 :: gr).length - 1 = (f0 :: fr).length - 1 := by rw [hlen]
    have h2 := hhigh _ (le_refl ((f0 :: fr).getD ((f0 :: fr).length - 1) 0))
    rw [hgl] at h2
    exact h2
  -- interior grid point: 0 < m < length - 1
  have hmint : 0 < m ∧ m < (f0 :: fr).length - 1 := ⟨Nat.pos_of_ne_zero hm0, by omega⟩
  have hlen1 : 1 < (f0 :: fr).length - 1 := by omega
  set bf := (f0 :: fr).getD m 0 with hbf
  have hnb0 : ¬ bf ≤ f0 := by
    have := hmono 0 m hmint.1 hm
    simp only [List.getD_cons_zero] at this
    exact not_le.mpr this
  have hnblast : ¬ (f0 :: fr).getD ((f0 :: fr).length - 1) 0 ≤ bf := by
    have := hmono m ((f0 :: fr).length - 1) hmint.2 (by omega)
    exact not_le.mpr this
  have hbr := bsearchGo_bracket (f0 :: fr) bf (f0 :: fr).length 0 ((f0 :: fr).length - 1)
    (by omega) (by omega)
    (by
      have := hmono 0 m hmint.1 hm
      simp only [List.getD_cons_zero] at this ⊢
      exact le_of_lt this)
    (hmono m ((f0 :: fr).length - 1) hmint.2 (by omega))
  have hbnd := bsearchGo_bounds (f0 :: fr) bf (f0 :: fr).length 0 ((f0 :: fr).length - 1)
    (by omega)
  obtain ⟨l, hi2, hsplit⟩ : ∃ l hi2,
      bsearchGo (f0 :: fr) bf (f0 :: fr).length 0 ((f0 :: fr).length - 1) = (l, hi2) :=
    ⟨_, _, rfl⟩
  rw [hsplit] at hbr hbnd
  simp only at hbr hbnd
  have hl1len : l + 1 ≤ (f0 :: fr).length - 1 := by omega
  have hleq : l = m := by
    rcases lt_trichotomy l m with hlt | heq | hgt
    · exfalso
      have hle : (f0 :: fr).getD (l + 1) 0 ≤ (f0 :: fr).getD m 0 := by
        rcases Nat.lt_or_ge (l + 1) m with hlm | hlm
        · exact le_of_lt (hmono (l + 1) m hlm hm)
        · have : l + 1 = m := by omega
          rw [this]
      exact absurd hbr.2.2 (not_lt.mpr hle)
    · exact heq
    · exfalso
      have : (f0 :: fr).getD m 0 < (f0 :: fr).getD l 0 :=
        hmono m l hgt (by omega)
      exact absurd hbr.2.1 (not_le.mpr this)
  have hres : bsearchGo (f0 :: fr) bf (f0 :: fr).length 0 ((f0 :: fr).length - 1) =
      (m, m + 1) := by
    rw [hsplit, hbr.1, hleq]
  show interpBin (f0 :: fr) (g0 :: gr) bf = .ok (((g0 :: gr).getD m 0 : ℚ) : ℝ)
  unfold interpBin
  dsimp only
  rw [if_neg hnb0, if_neg hnblast]
  rw [hres]
  dsimp only
  have hne1 : (f0 :: fr).getD (m + 1) 0 ≠ (f0 :: fr).getD m 0 :=
    ne_of_gt (hmono m (m + 1) (by omega) (by omega))
  rw [if_pos hne1]
  have hdom : ¬ (bf ≤ 0 ∨ (f0 :: fr).getD m 0 ≤ 0 ∨ (f0 :: fr).getD (m + 1) 0 ≤ 0) := by
    push_neg
    exact ⟨hposD m hm, hposD m hm, hposD (m + 1) (by omega)⟩
  rw [if_neg hdom]
  have hbound : ¬ ((g0 :: gr).length ≤ m + 1 ∨ (g0 :: gr).length ≤ m) := by
    push_neg
    constructor
    · rw [hlen]; omega
    · rw [hlen]; omega
  rw [if_neg hbound]
  rw [hbf]
  rw [sub_self, zero_div, zero_mul, add_zero]

/-- C6 counterexample: on the strictly increasing grid [-2, -1, 3] the
interpolation at the interior grid frequency -1 raises a math domain error
from log of a negative number instead of returning the stored gain 6. -/
theorem interp_exact_counterexample :
    interpBin [-2, -1, 3] [5, 6, 7] (-1) = .error .mathDomain ∧
    (Except.error Err.mathDomain : Except Err ℝ) ≠ .ok ((6:ℚ) : ℝ) := by
  constructor
  · with_unfolding_all rfl
  · simp

/-- Witness for interp_exact: on the grid [1, 2, 4] with gains [5, 6, 7],
interpolation at the interior grid frequency 2 returns the stored gain 6
exactly. -/
theorem interp_exact_witness :
    interpBin [1, 2, 4] [5, 6, 7] 2 = .ok ((6:ℚ) : ℝ) := by
  have h := (interp_exact [1, 2, 4] [5, 6, 7]
    (by with_unfolding_all decide) (by with_unfolding_all decide)
    (by simp) (by simp)).1 1 (by simp)
  simpa using h

theorem getD_replicate_real (n j : ℕ) (c : ℝ) (hj : j < n) :
    (List.replicate n c).getD j 0 = c := by
  rw [List.getD_eq_getElem _ _ (by simpa using hj)]
  simp

theorem getD_replicate_zero (n j : ℕ) : (List.replicate n (0:ℝ)).getD j 0 = 0 := by
  by_cases hj : j < n
  · exact getD_replicate_real n j 0 hj
  · push_neg at hj
    exact List.getD_eq_default _ _ (by simpa using hj)

theorem map_range_const (n : ℕ) (f : ℕ → ℝ) (c : ℝ) (h : ∀ k, f k = c) :
    (List.range n).map f = List.replicate n c := by
  rw [funext h, List.map_const', List.length_range]

theorem getD_map_range (n k : ℕ) (f : ℕ → ℝ) (hk : k < n) :
    ((List.range n).map f).getD k 0 = f k := by
  rw [List.getD_eq_getElem _ _ (by simp [hk])]
  simp

theorem interpBin_flat (freqs gains : List ℚ)
    (hpos : ∀ f ∈ freqs, 0 < f) (hlen : gains.length = freqs.length)
    (hne : freqs ≠ []) (hflat : ∀ g ∈ gains, g = 0) :
    ∀ bf : ℚ, interpBin freqs gains bf = .ok 0 := by
  obtain ⟨f0, fr, rfl⟩ : ∃ f0 fr, freqs = f0 :: fr := by
    cases freqs with
    | nil => exact absurd rfl hne
    | cons a l => exact ⟨a, l, rfl⟩
  obtain ⟨g0, gr, rfl⟩ : ∃ g0 gr, gains = g0 :: gr := by
    cases gains with
    | nil => simp at hlen
    | cons a l => exact ⟨a, l, rfl⟩
  intro bf
  have hg : ∀ i, (g0 :: gr).getD i 0 = 0 := by
    intro i
    by_cases hi : i < (g0 :: gr).length
    · exact hflat _ (getD_mem _ i 0 hi)
    · push_neg at hi
      exact List.getD_eq_default _ _ hi
  have hposD : ∀ i, i < (f0 :: fr).length → 0 < (f0 :: fr).getD i 0 :=
    fun i hi => hpos _ (getD_mem _ i 0 hi)
  unfold interpBin
  dsimp only
  by_cases h1 : bf ≤ f0
  · rw [if_pos h1]
    have := hflat g0 (List.mem_cons_self _ _)
    rw [this]
    norm_num
  · rw [if_neg h1]
    by_cases h2 : (f0 :: fr).getD ((f0 :: fr).length - 1) 0 ≤ bf
    · rw [if_pos h2, if_neg (by simp : ¬(g0 :: gr) = [])]
      rw [hg]
      norm_num
    · rw [if_neg h2]
      cases fr with
      | nil =>
        exfalso
        simp only [List.length_cons, List.length_nil, List.getD_cons_zero] at h2
        exact h2 (le_of_lt (lt_of_not_le h1))
      | cons f1 fs =>
        obtain ⟨l, hi2, hsplit⟩ : ∃ l hi2,
            bsearchGo (f0 :: f1 :: fs) bf (f0 :: f1 :: fs).length 0
              ((f0 :: f1 :: fs).length - 1) = (l, hi2) := ⟨_, _, rfl⟩
        have hbnd := bsearchGo_bounds (f0 :: f1 :: fs) bf (f0 :: f1 :: fs).length 0
          ((f0 :: f1 :: fs).length - 1) (by simp)
        rw [hsplit] at hbnd
        simp only at hbnd
        have hllen : l < (f0 :: f1 :: fs).length := by
          simp only [List.length_cons] at hbnd ⊢
          omega
        have hhlen : hi2 < (f0 :: f1 :: fs).length := by
          simp only [List.length_cons] at hbnd ⊢
          omega
        rw [hsplit]
        dsimp only
        have hbfpos : (0:ℚ) < bf := lt_trans (hposD 0 (by simp)) (lt_of_not_le h1)
        by_cases heq : (f0 :: f1 :: fs).getD hi2 0 ≠ (f0 :: f1 :: fs).getD l 0
        · rw [if_pos heq]
          have hdom : ¬ (bf ≤ 0 ∨ (f0 :: f1 :: fs).getD l 0 ≤ 0 ∨
              (f0 :: f1 :: fs).getD hi2 0 ≤ 0) := by
            push_neg
            exact ⟨hbfpos, hposD l hllen, hposD hi2 hhlen⟩
          rw [if_neg hdom]
          have hbound : ¬ ((g0 :: gr).length ≤ hi2 ∨ (g0 :: gr).length ≤ l) := by
            push_neg
            rw [hlen]
            exact ⟨hhlen, hllen⟩
          rw [if_neg hbound]
          rw [hg l, hg hi2]
          norm_num
        · rw [if_neg heq]
          have hbound : ¬ ((g0 :: gr).length ≤ hi2 ∨ (g0 :: gr).length ≤ l) := by
            push_neg
            rw [hlen]
            exact ⟨hhlen, hllen⟩
          rw [if_neg hbound]
          rw [hg l, hg hi2]
          norm_num

theorem mapM_const_ok {α : Type} (f : α → Except Err ℝ) (c : ℝ) :
    ∀ (l : List α), (∀ x ∈ l, f x = .ok c) →
      l.mapM f = .ok (List.replicate l.length c) := by
  intro l
  induction l with
  | nil => intro h; rfl
  | cons a t ih =>
    intro h
    rw [List.mapM_cons, h a (List.mem_cons_self _ _),
      ih (fun x hx => h x (List.mem_cons_of_mem _ hx))]
    rfl

theorem sum_cos_two_pi (n k : ℕ) (h0 : 0 < k) (h1 : k < n) :
    ∑ j ∈ Finset.range n, Real.cos (dftAngle n k j) = 0 := by
  have hnR : (n:ℝ) ≠ 0 := Nat.cast_ne_zero.mpr (by omega)
  set θ : ℝ := 2 * Real.pi * k / n with hθ
  have hangle : ∀ j : ℕ, dftAngle n k j = θ * j := by
    intro j
    rw [hθ]
    unfold dftAngle
    field_simp
  set z : ℂ := Complex.exp ((θ : ℝ) * Complex.I) with hz
  have hze : ∀ j : ℕ, z ^ j = Complex.exp (((θ * j : ℝ)) * Complex.I) := by
    intro j
    rw [hz, ← Complex.exp_nat_mul]
    congr 1
    push_cast
    ring
  have hz1 : z ≠ 1 := by
    rw [hz]
    intro hc
    rw [Complex.exp_eq_one_iff] at hc
    obtain ⟨m, hm⟩ := hc
    have hm2 : ((θ : ℝ) : ℂ) * Complex.I = (((m : ℝ) * (2 * Real.pi) : ℝ) : ℂ) * Complex.I := by
      rw [hm]
      push_cast
      ring
    have him : θ = (m : ℝ) * (2 * Real.pi) := by
      have := congrArg Complex.im hm2
      simpa using this
    rw [hθ] at him
    have hk : (k : ℝ) = (m : ℝ) * n := by
      field_simp at him
      nlinarith [Real.pi_ne_zero, Real.pi_pos]
    have hkz : (k : ℤ) = m * n := by exact_mod_cast hk
    have hk0 : (0 : ℤ) < k := by exact_mod_cast h0
    have hkn : (k : ℤ) < n := by exact_mod_cast h1
    have hn0 : (0 : ℤ) < n := by omega
    rcases le_or_lt m 0 with hm0 | hm0
    · have : m * n ≤ 0 := mul_nonpos_of_nonpos_of_nonneg hm0 (le_of_lt hn0)
      omega
    · have hm1 : 1 ≤ m := hm0
      have : n ≤ m * n := le_mul_of_one_le_left (le_of_lt hn0) hm1
      omega
  have hzn : z ^ n = 1 := by
    rw [hze n]
    have hnC : (n : ℂ) ≠ 0 := Nat.cast_ne_zero.mpr (by omega)
    have harg : ((θ * n : ℝ) : ℂ) * Complex.I = (k : ℤ) * (2 * Real.pi * Complex.I) := by
      rw [hθ]
      push_cast
      field_simp
      ring
    rw [harg, Complex.exp_int_mul_two_pi_mul_I]
  have hsum : ∑ j ∈ Finset.range n, z ^ j = 0 := by
    rw [geom_sum_eq hz1, hzn, sub_self, zero_div]
  have hre := congrArg Complex.re hsum
  rw [Complex.re_sum] at hre
  simp only [Complex.zero_re] at hre
  calc ∑ j ∈ Finset.range n, Real.cos (dftAngle n k j)
      = ∑ j ∈ Finset.range n, (z ^ j).re := by
        apply Finset.sum_congr rfl
        intro j _
        rw [hangle j, hze j, Complex.exp_ofReal_mul_I_re]
    _ = 0 := hre

theorem sum_cos_zero_freq (n : ℕ) :
    ∑ j ∈ Finset.range n, Real.cos (dftAngle n 0 j) = n := by
  have : ∀ j ∈ Finset.range n, Real.cos (dftAngle n 0 j) = 1 := by
    intro j _
    unfold dftAngle
    norm_num
  rw [Finset.sum_congr rfl this]
  simp

theorem getD_take (l : List ℝ) (L k : ℕ) (hkL : k < L) :
    (l.take L).getD k 0 = l.getD k 0 := by
  by_cases hk : k < l.length
  · rw [List.getD_eq_getElem _ _ (by rw [List.length_take]; omega),
      List.getD_eq_getElem _ _ hk]
    exact List.getElem_take l
  · push_neg at hk
    rw [List.getD_eq_default _ _ (by rw [List.length_take]; omega),
      List.getD_eq_default _ _ hk]

set_option maxHeartbeats 1000000 in
/-- C3 (amended): a flat 0 dB curve over a strictly increasing grid of
positive frequencies synthesizes an impulse response whose sample 0 is
within 1e-3 of 1.0 (it equals 1 exactly in exact arithmetic) and whose
remaining samples are within 1e-3 of 0.0 (exactly 0).  Positivity of the
grid is required: with a nonpositive grid frequency below some bin the
interior interpolation raises a math domain error instead. -/
theorem freq_response_flat_unit (freqs gains : List ℚ) (sr : ℚ) (L : ℕ)
    (hinc : freqs.Pairwise (· < ·)) (hpos : ∀ f ∈ freqs, 0 < f)
    (hlen : gains.length = freqs.length) (hne : freqs ≠ [])
    (hflat : ∀ g ∈ gains, g = 0) (hL : 0 < L) :
    ∃ ir, freq_response_to_ir freqs gains sr L = .ok ir ∧ ir ≠ [] ∧
      |ir.getD 0 0 - 1| ≤ 1e-3 ∧
      (∀ k, 1 ≤ k → k < ir.length → |ir.getD k 0| ≤ 1e-3) := by
  have hbinlen : (binFreqs sr L).length = L / 2 + 1 := by
    unfold binFreqs
    rw [List.length_map, List.length_range]
  have hInterp : interpGains freqs gains sr L = .ok (List.replicate (L / 2 + 1) 0) := by
    unfold interpGains
    rw [mapM_const_ok (interpBin freqs gains) 0 (binFreqs sr L)
      (fun x _ => interpBin_flat freqs gains hpos hlen hne hflat x), hbinlen]
  set h := L / 2 + 1 with hh
  set n := h + (h - 2) with hn
  have hn1 : 0 < n := by omega
  have hmag : magnitudes (List.replicate h 0) = List.replicate h 1 := by
    unfold magnitudes
    rw [List.map_replicate]
    norm_num
  have hlog : logMag (List.replicate h 1) = List.replicate h 0 := by
    unfold logMag
    rw [List.map_replicate]
    rw [max_eq_left (by norm_num : (1e-10:ℝ) ≤ 1), Real.log_one]
  have hfull : fullLogMag (List.replicate h (0:ℝ)) = List.replicate n (0:ℝ) := by
    unfold fullLogMag
    have h11 : h - 1 - 1 = h - 2 := by omega
    rw [List.drop_replicate, List.dropLast_replicate, List.reverse_replicate, h11,
      ← List.replicate_add]
  have hcepRe : cepstrumRe (List.replicate n (0:ℝ)) = List.replicate n 0 := by
    unfold cepstrumRe
    rw [List.length_replicate]
    apply map_range_const
    intro k
    apply Finset.sum_eq_zero
    intro j _
    rw [getD_replicate_zero]
    ring
  have hcepIm : cepstrumIm (List.replicate n (0:ℝ)) = List.replicate n 0 := by
    unfold cepstrumIm
    rw [List.length_replicate]
    apply map_range_const
    intro k
    apply Finset.sum_eq_zero
    intro j _
    rw [getD_replicate_zero]
    ring
  have hwinRe : mpWindowRe (List.replicate n (0:ℝ)) n = List.replicate n 0 := by
    unfold mpWindowRe
    apply map_range_const
    intro k
    split_ifs <;> simp [getD_replicate_zero]
  have hwinIm : mpWindowIm (List.replicate n (0:ℝ)) n = List.replicate n 0 := by
    unfold mpWindowIm
    apply map_range_const
    intro k
    split_ifs <;> simp [getD_replicate_zero]
  have hspecRe : specRe (List.replicate n 0) (List.replicate n 0) n = List.replicate n 0 := by
    unfold specRe
    apply map_range_const
    intro k
    apply Finset.sum_eq_zero
    intro j _
    rw [getD_replicate_zero]
    ring
  have hspecIm : specIm (List.replicate n 0) (List.replicate n 0) n = List.replicate n 0 := by
    unfold specIm
    apply map_range_const
    intro k
    apply Finset.sum_eq_zero
    intro j _
    rw [getD_replicate_zero]
    ring
  have hmpsRe : mpSpecRe (List.replicate n 0) (List.replicate n 0) n = List.replicate n 1 := by
    unfold mpSpecRe
    apply map_range_const
    intro k
    rw [getD_replicate_zero]
    simp [Real.exp_zero, Real.cos_zero]
  have hmpsIm : mpSpecIm (List.replicate n 0) (List.replicate n 0) n = List.replicate n 0 := by
    unfold mpSpecIm
    apply map_range_const
    intro k
    rw [getD_replicate_zero]
    simp [Real.exp_zero, Real.sin_zero]
  have hpipe : synthPipeline (List.replicate h 0) L =
      (irOf (List.replicate n 1) (List.replicate n 0) n).take L := by
    unfold synthPipeline
    rw [hmag, hlog, hfull, List.length_replicate, hcepRe, hcepIm, hwinRe, hwinIm,
      hspecRe, hspecIm, hmpsRe, hmpsIm]
  have hok : freq_response_to_ir freqs gains sr L =
      .ok ((irOf (List.replicate n 1) (List.replicate n 0) n).take L) := by
    unfold freq_response_to_ir
    rw [hInterp]
    show Except.ok (synthPipeline (List.replicate h 0) L) = _
    rw [hpipe]
  have hlen_ir : (irOf (List.replicate n 1) (List.replicate n 0) n).length = n := by
    unfold irOf
    rw [List.length_map, List.length_range]
  have hsum_entry : ∀ k, k < n →
      (irOf (List.replicate n 1) (List.replicate n 0) n).getD k 0 =
        (∑ j ∈ Finset.range n, Real.cos (dftAngle n k j)) / n := by
    intro k hk
    unfold irOf
    rw [getD_map_range n k _ hk]
    congr 1
    apply Finset.sum_congr rfl
    intro j hj
    rw [getD_replicate_real n j 1 (Finset.mem_range.mp hj), getD_replicate_zero]
    ring
  have hir0 : (irOf (List.replicate n 1) (List.replicate n 0) n).getD 0 0 = 1 := by
    rw [hsum_entry 0 hn1, sum_cos_zero_freq]
    field_simp
  have hirk : ∀ k, 1 ≤ k → k < n →
      (irOf (List.replicate n 1) (List.replicate n 0) n).getD k 0 = 0 := by
    intro k hk1 hk2
    rw [hsum_entry k hk2, sum_cos_two_pi n k hk1 hk2, zero_div]
  refine ⟨_, hok, ?_, ?_, ?_⟩
  · rw [← List.length_pos, List.length_take, hlen_ir]
    omega
  · rw [getD_take _ _ _ hL, hir0]
    norm_num
  · intro k hk1 hk2
    rw [List.length_take, hlen_ir] at hk2
    rw [getD_take _ _ _ (by omega), hirk k hk1 (by omega)]
    norm_num

/-- C3 counterexample: on the strictly increasing flat 0 dB curve with
grid [-1, 5], the bin frequency 0 falls strictly between the grid ends, so
the interpolation computes log of 0 and synthesis fails with a math domain
error instead of producing a unit sample; the claim as stated is false at
this input. -/
theorem freq_response_flat_negative_counterexample :
    freq_response_to_ir [-1, 5] [0, 0] 48000 4 = .error .mathDomain ∧
    (freq_response_to_ir [-1, 5] [0, 0] 48000 4).isOk = false := by
  constructor
  · with_unfolding_all rfl
  · with_unfolding_all rfl

/-- Witness for freq_response_flat_unit at the concrete flat curve with
grid [1, 2], gains [0, 0], sample rate 48000 and ir_length 4. -/
theorem freq_response_flat_unit_witness :
    ∃ ir, freq_response_to_ir [1, 2] [0, 0] 48000 4 = .ok ir ∧ ir ≠ [] ∧
      |ir.getD 0 0 - 1| ≤ 1e-3 ∧
      (∀ k, 1 ≤ k → k < ir.length → |ir.getD k 0| ≤ 1e-3) :=
  freq_response_flat_unit [1, 2] [0, 0] 48000 4
    (by with_unfolding_all decide) (by with_unfolding_all decide)
    (by simp) (by simp) (by simp) (by norm_num)

theorem pyTrunc_abs (q : ℚ) : |pyTrunc q| = ⌊|q|⌋ := by
  unfold pyTrunc
  by_cases h : 0 ≤ q
  · rw [if_pos h, abs_of_nonneg h, abs_of_nonneg]
    exact Int.floor_nonneg.mpr h
  · push_neg at h
    rw [if_neg (not_le.mpr h), abs_of_neg h, abs_of_nonpos, ← Int.floor_neg]
    exact Int.ceil_le.mpr (by exact_mod_cast le_of_lt h)

theorem clamp_of_abs_le (t : ℤ) (h : |t| ≤ 31128) :
    max (-32767) (min 32767 t) = t := by
  rw [abs_le] at h
  rw [min_eq_right (le_trans h.2 (by norm_num)),
    max_eq_right (le_trans (by norm_num) h.1)]

theorem clamp_bounds (t : ℤ) :
    -32767 ≤ max (-32767) (min 32767 t) ∧ max (-32767) (min 32767 t) ≤ 32767 :=
  ⟨le_max_left _ _, max_le (by norm_num) (min_le_left _ _)⟩

theorem quant_abs (s : ℚ) (h : |s| ≤ 2) :
    |max (-32767) (min 32767 (pyTrunc (s * ((0.95:ℚ)/2) * 32767)))| ≤ 31128 ∧
    (|s| = 2 → |max (-32767) (min 32767 (pyTrunc (s * ((0.95:ℚ)/2) * 32767)))| = 31128) := by
  have harg : s * ((0.95:ℚ)/2) * 32767 = s * (622573/40) := by
    norm_num
    ring
  have habs : |s * ((0.95:ℚ)/2) * 32767| = |s| * (622573/40) := by
    rw [harg, abs_mul, abs_of_nonneg (show (0:ℚ) ≤ 622573/40 by norm_num)]
  have htr : |pyTrunc (s * ((0.95:ℚ)/2) * 32767)| = ⌊|s| * (622573/40)⌋ := by
    rw [pyTrunc_abs, habs]
  have hfl : ⌊|s| * ((622573:ℚ)/40)⌋ ≤ 31128 := by
    calc ⌊|s| * ((622573:ℚ)/40)⌋ ≤ ⌊(2:ℚ) * (622573/40)⌋ :=
          Int.floor_le_floor (by nlinarith [abs_nonneg s])
      _ = 31128 := by norm_num
  have hle : |pyTrunc (s * ((0.95:ℚ)/2) * 32767)| ≤ 31128 := htr ▸ hfl
  rw [clamp_of_abs_le _ hle]
  refine ⟨hle, fun h2 => ?_⟩
  rw [htr, h2]
  norm_num

/-- C4 (amended): PCM rendering computes scale = 0.95 / peak (a peak of 0
treated as 1) and quantizes every sample as
clamp(int(sample * scale * 32767), -32767, 32767), where int() truncates
toward zero rather than rounding; a signal with peak amplitude 2.0 has its
rendered peak sample magnitude equal to int(0.95 * 32767) = 31128, and no
rendered sample exceeds 32767 or falls below -32767. -/
theorem write_wav_quantization (samples : List ℚ) (hne : samples ≠ []) :
    ∃ out, write_wav_samples samples = .ok out ∧
      out.length = samples.length ∧
      (∀ y ∈ out, -32767 ≤ y ∧ y ≤ 32767) ∧
      ((∀ s ∈ samples, |s| ≤ 2) → (2:ℚ) ∈ samples.map (fun s => |s|) →
        (∀ y ∈ out, |y| ≤ 31128) ∧ 31128 ∈ out.map (fun y => |y|)) := by
  obtain ⟨a, l, rfl⟩ : ∃ a l, samples = a :: l := by
    cases samples with
    | nil => exact absurd rfl hne
    | cons a l => exact ⟨a, l, rfl⟩
  have hmax : ((a :: l).map (fun s => |s|)).max? =
      some ((l.map (fun s => |s|)).foldl max |a|) := by
    simp [List.max?]
  set peak := (l.map (fun s => |s|)).foldl max |a| with hpeak
  have hww : write_wav_samples (a :: l) = .ok ((a :: l).map (fun s =>
      max (-32767) (min 32767
        (pyTrunc (s * ((0.95:ℚ)/(if peak = 0 then 1 else peak)) * 32767))))) := by
    unfold write_wav_samples
    rw [hmax]
  refine ⟨_, hww, by simp, ?_, ?_⟩
  · intro y hy
    simp only [List.mem_map] at hy
    obtain ⟨s, _, rfl⟩ := hy
    exact clamp_bounds _
  · intro hall hmem
    have hple : ∀ x ∈ (a :: l).map (fun s => |s|), x ≤ peak := fun x hx =>
      ((List.max?_le_iff (fun a b c => max_le_iff) hmax).mp (le_refl peak)) x hx
    have hpmem : peak ∈ (a :: l).map (fun s => |s|) :=
      List.max?_mem (fun u v => max_choice u v) hmax
    have hp2 : peak = 2 := by
      refine le_antisymm ?_ (hple 2 hmem)
      obtain ⟨s, hs, hsp⟩ := List.mem_map.mp hpmem
      rw [← hsp]
      exact hall s hs
    have hscale : (if peak = 0 then 1 else peak) = 2 := by
      rw [hp2]
      norm_num
    constructor
    · intro y hy
      simp only [hscale, List.mem_map] at hy
      obtain ⟨s, hs, rfl⟩ := hy
      exact (quant_abs s (hall s hs)).1
    · obtain ⟨s0, hs0, hs0p⟩ := List.mem_map.mp hmem
      simp only [hscale]
      refine List.mem_map.mpr ⟨max (-32767) (min 32767
        (pyTrunc (s0 * ((0.95:ℚ)/2) * 32767))), List.mem_map_of_mem _ hs0, ?_⟩
      exact (quant_abs s0 (le_of_eq hs0p)).2 hs0p

/-- C4 counterexample: on the one-sample signal [2.0] (peak amplitude 2.0)
the quantizer outputs 31128, the truncation of 0.95 * 32767, while the
claim demands round(0.95 * 32767) = 31129; so the claim as stated is false
at this input. -/
theorem write_wav_round_counterexample :
    write_wav_samples [2] = .ok [31128] ∧ (round ((0.95:ℚ) * 32767) : ℤ) = 31129 := by
  constructor
  · unfold write_wav_samples
    have h1 : (List.map (fun s => |s|) [(2:ℚ)]).max? = some 2 := by
      norm_num [List.max?]
    rw [h1]
    have h2 : ((2:ℚ) * ((0.95:ℚ)/2) * 32767) = 622573/20 := by norm_num
    have h3 : pyTrunc (622573/20) = 31128 := by
      unfold pyTrunc
      rw [if_pos (by norm_num)]
      norm_num
    simp only [List.map_cons, List.map_nil]
    norm_num [h2, h3]
  · norm_num [round_eq]

/-- Witness for write_wav_quantization at the concrete input [2.0]. -/
theorem write_wav_quantization_witness :
    ∃ out, write_wav_samples [(2:ℚ)] = .ok out ∧
      out.length = [(2:ℚ)].length ∧
      (∀ y ∈ out, -32767 ≤ y ∧ y ≤ 32767) ∧
      ((∀ s ∈ [(2:ℚ)], |s| ≤ 2) → (2:ℚ) ∈ [(2:ℚ)].map (fun s => |s|) →
        (∀ y ∈ out, |y| ≤ 31128) ∧ 31128 ∈ out.map (fun y => |y|)) :=
  write_wav_quantization [2] (by simp)

end Swproj
